import Mathlib

/-! Si446x driver (`Code/Communication/Si446x.cpp`): transport and frequency planner.

A shallow embedding of the Arduino driver for the Si446x transceiver.

* Machine integers are naturals with explicit wrap-around at the widths of the
  Arduino target (`unsigned int` 16 bit, `unsigned long` 32 bit); a `char` is
  signed, and what goes on the bus is its low byte.
* `float` is IEEE-754 binary32: every operation is computed exactly and then
  rounded to 24 significant bits, ties to even.  Values are kept as
  sign / significand / exponent triples so that every definition evaluates.
* The SPI bus and the GPIO pins are a mock: every `SPI.transfer`,
  `digitalWrite`, `pinMode`, `delay` and `delayMicroseconds` is appended to a
  trace, and the byte shifted back by the device is read from a reply stream.
-/

namespace Si446x

/-! ## binary32 arithmetic -/

/-- A binary floating point value `(-1)^neg * man * 2^exp`. -/
structure F32 where
  neg : Bool
  man : Nat
  exp : Int
  deriving DecidableEq, Repr

/-- Floor of the base-2 logarithm of `n` (0 for `n < 2`); the first argument bounds the
number of halvings and `n` itself is always enough. -/
def ilog2 : Nat → Nat → Nat
  | 0, _ => 0
  | fuel + 1, n => if n < 2 then 0 else ilog2 fuel (n / 2) + 1

/-- The quotient `num / den` rounded to the nearest integer, ties to even. -/
def divRoundEven (num den : Nat) : Nat :=
  let q := num / den
  let r := num % den
  if 2 * r < den then q
  else if den < 2 * r then q + 1
  else if q % 2 = 0 then q else q + 1

/-- The exponent `L` with `2^L ≤ num / den < 2^(L+1)`, for `num, den > 0`. -/
def expOf (num den : Nat) : Int :=
  let a := ilog2 num num
  let b := ilog2 den den
  if den * 2 ^ a ≤ num * 2 ^ b then (a : Int) - b else (a : Int) - b - 1

/-- Round `± (num / den) * 2^s` to 24 significant bits, nearest, ties to even.
The exponent range of binary32 is not modelled (no overflow to infinity, no subnormals). -/
def round24 (neg : Bool) (num den : Nat) (s : Int) : F32 :=
  if num = 0 then ⟨neg, 0, 0⟩
  else
    let sh : Int := expOf num den - 23
    let man :=
      if 0 ≤ sh then divRoundEven num (den * 2 ^ sh.toNat)
      else divRoundEven (num * 2 ^ (-sh).toNat) den
    ⟨neg, man, sh + s⟩

namespace F32

/-- The rational number a triple stands for. -/
def toRat (a : F32) : ℚ := (if a.neg then -1 else 1) * (a.man : ℚ) * (2 : ℚ) ^ a.exp

/-- The magnitude `man * 2^exp`. -/
def mag (a : F32) : ℚ := (a.man : ℚ) * (2 : ℚ) ^ a.exp

/-- The significand with its sign. -/
def sman (a : F32) : Int := if a.neg then -(a.man : Int) else a.man

/-- Conversion of an unsigned integer to `float`. -/
def ofNat (n : Nat) : F32 := round24 false n 1 0

/-- Division `a / b` in `float`.  Division by zero (an infinity or a NaN in C) is not
modelled; no divisor of the driver is zero. -/
def div (a b : F32) : F32 := round24 (xor a.neg b.neg) a.man b.man (a.exp - b.exp)

/-- Multiplication `a * b` in `float`. -/
def mul (a b : F32) : F32 := round24 (xor a.neg b.neg) (a.man * b.man) 1 (a.exp + b.exp)

/-- Subtraction `a - b` in `float`: the exact difference on the common exponent, rounded. -/
def sub (a b : F32) : F32 :=
  let e := min a.exp b.exp
  let d : Int := a.sman * 2 ^ (a.exp - e).toNat - b.sman * 2 ^ (b.exp - e).toNat
  round24 (decide (d < 0)) d.natAbs 1 e

/-- Comparison `a < b` in `float`. -/
def lt (a b : F32) : Bool :=
  let e := min a.exp b.exp
  decide (a.sman * 2 ^ (a.exp - e).toNat < b.sman * 2 ^ (b.exp - e).toNat)

/-- Magnitude truncated toward zero. -/
def trunc (a : F32) : Nat :=
  if 0 ≤ a.exp then a.man * 2 ^ a.exp.toNat else a.man / 2 ^ (-a.exp).toNat

/-- The conversion `(unsigned long)a` is defined in C: the value is not negative and its
truncation fits in 32 bits. -/
def inULongRange (a : F32) : Prop := a.neg = false ∧ a.trunc < 2 ^ 32

/-- Conversion `(unsigned long)a`: truncation toward zero.  C leaves the conversion
undefined when the truncated value is negative or does not fit in 32 bits; here a negative
value gives 0 and a large one wraps. -/
def toULong (a : F32) : Nat := if a.neg then 0 else a.trunc % 2 ^ 32

end F32

/-- The relative rounding error bound of 24-bit rounding used below, `2^-23`. -/
def eps : ℚ := 1 / 8388608

/-! ## Target constants (`V1/Si446x.h`) -/

/-- Frequency of the crystal oscillator attached to the Si446x, in Hz. -/
def VCXO_FREQ : Nat := 27000000
/-- Frequency for the first initialisation of the transmitter, in Hz. -/
def DEFAULT_FREQ : Nat := 433550000
/-- Shift (channel spacing) for the first initialisation, in Hz. -/
def DEFAULT_SHIFT : Nat := 400
/-- Power level of the PA. -/
def DEFAULT_POWER_LEVEL : Nat := 20
/-- Direct digital modulation pin. -/
def GPIO0_PIN : Nat := 4

/-! ## Mock bus, pins and driver state -/

/-- Digital pin level. -/
inductive Level where
  | LOW
  | HIGH
  deriving DecidableEq, Repr

/-- One observable action of the driver on its environment. -/
inductive Event where
  | pinMode (pin : Nat)
  | digitalWrite (pin : Nat) (v : Level)
  | transfer (out : Nat) (back : Nat)
  | delayMicroseconds (us : Nat)
  | delay (ms : Nat)
  deriving DecidableEq, Repr

/-- The globals of `Si446x.cpp`, the select pin of the driver object, and the mock
environment: `miso k` is the byte the device shifts back on the `k`-th `SPI.transfer`,
`clock` counts the transfers made so far, `beyond j` is the byte found at offset `j` of a
command array that is shorter than `j + 1` bytes, and `trace` lists the actions so far.
The global `outdiv` is an `int` that only ever holds 4 or a value of the breakpoint table,
so it is kept as a natural number. -/
structure State where
  pin : Nat
  si446x_powerlevel : Nat
  active_freq : Nat
  active_shift : Nat
  active_level : Nat
  outdiv : Nat
  miso : Nat → Nat
  beyond : Nat → Nat
  clock : Nat
  trace : List Event

/-- The state after static initialisation and the constructor `Si446x(pin)`. -/
def startup (pin : Nat) (miso beyond : Nat → Nat) : State :=
  { pin := pin
    si446x_powerlevel := 0
    active_freq := DEFAULT_FREQ
    active_shift := DEFAULT_SHIFT
    active_level := DEFAULT_POWER_LEVEL
    outdiv := 4
    miso := miso
    beyond := beyond
    clock := 0
    trace := [Event.pinMode pin, Event.digitalWrite pin Level.HIGH] }

/-- Arduino `pinMode(pin, OUTPUT)`. -/
def pinMode (pin : Nat) (s : State) : State :=
  { s with trace := s.trace ++ [Event.pinMode pin] }

/-- Arduino `digitalWrite`. -/
def digitalWrite (pin : Nat) (v : Level) (s : State) : State :=
  { s with trace := s.trace ++ [Event.digitalWrite pin v] }

/-- Arduino `delayMicroseconds`. -/
def delayMicroseconds (us : Nat) (s : State) : State :=
  { s with trace := s.trace ++ [Event.delayMicroseconds us] }

/-- Arduino `delay` (milliseconds). -/
def delay (ms : Nat) (s : State) : State :=
  { s with trace := s.trace ++ [Event.delay ms] }

/-- Full-duplex transfer of one byte: `out` goes on MOSI, the device's byte comes back. -/
def SPI.transfer (out : Nat) (s : State) : Nat × State :=
  let back := s.miso s.clock % 256
  (back, { s with clock := s.clock + 1, trace := s.trace ++ [Event.transfer out back] })

/-- A command array in memory: the listed bytes, followed by whatever lies beyond them. -/
def arr (l : List Nat) (beyond : Nat → Nat) : Nat → Nat :=
  fun j => l.getD j (beyond j)

/-! ## Transport -/

/-- The command loop `for (j = 0; j < byteCountTx; j++) SPI.transfer(pData[j])`,
with `k` iterations left at index `j`. -/
def writeBytes (pData : Nat → Nat) : Nat → Nat → State → State
  | 0, _, s => s
  | k + 1, j, s => writeBytes pData k (j + 1) (SPI.transfer (pData j % 256) s).2

/-- The readiness loop `while (reply != 0xFF)`; `none` when the loop is still running after
`fuel` polls. -/
def pollLoop : Nat → State → Option State
  | 0, _ => none
  | fuel + 1, s =>
    let r := SPI.transfer 0x44 s
    if r.1 ≠ 0xFF then
      pollLoop fuel
        (digitalWrite s.pin Level.LOW (delayMicroseconds 20 (digitalWrite s.pin Level.HIGH r.2)))
    else some r.2

/-- `Si446x::SendCmdReceiveAnswer`. -/
def SendCmdReceiveAnswer (fuel : Nat) (byteCountTx : Int) (_byteCountRx : Int)
    (pData : Nat → Nat) (s : State) : Option State :=
  let byteCountTx := if byteCountTx = 1 then byteCountTx + 1 else byteCountTx
  let s := digitalWrite s.pin Level.LOW s
  let s := writeBytes pData byteCountTx.toNat 0 s
  let s := digitalWrite s.pin Level.HIGH s
  let s := delayMicroseconds 20 s
  let s := digitalWrite s.pin Level.LOW s
  (pollLoop fuel s).map fun s => delay 50 (digitalWrite s.pin Level.HIGH s)

/-! ## Frequency planner -/

/-- The breakpoint cascade of `sendFrequencyToSi446x`: the new value of the global `outdiv`
and the local `band`, from the carrier frequency and the old `outdiv`. -/
def selectBand (freq outdiv : Nat) : Nat × Nat :=
  let r : Nat × Nat := (outdiv, 0)
  let r := if freq < 705000000 then (6, 1) else r
  let r := if freq < 525000000 then (8, 2) else r
  let r := if freq < 353000000 then (12, 3) else r
  let r := if freq < 239000000 then (16, 4) else r
  let r := if freq < 177000000 then (24, 5) else r
  r

/-- `unsigned long f_pfd = 2 * VCXO_FREQ / outdiv`. -/
def f_pfd (outdiv : Nat) : Nat := (2 * VCXO_FREQ / outdiv) % 2 ^ 32

/-- `unsigned int n = ((unsigned int)(freq / f_pfd)) - 1`, in 16-bit unsigned arithmetic. -/
def pll_n (freq outdiv : Nat) : Nat :=
  ((freq / f_pfd outdiv) % 2 ^ 16 + (2 ^ 16 - 1)) % 2 ^ 16

/-- `float ratio = (float)freq / (float)f_pfd`. -/
def pll_ratio (freq outdiv : Nat) : F32 :=
  F32.div (F32.ofNat freq) (F32.ofNat (f_pfd outdiv))

/-- `float rest = ratio - (float)n`. -/
def pll_rest (freq outdiv : Nat) : F32 :=
  F32.sub (pll_ratio freq outdiv) (F32.ofNat (pll_n freq outdiv))

/-- `unsigned long m = (unsigned long)(rest * 524288UL)`. -/
def pll_m (freq outdiv : Nat) : Nat :=
  F32.toULong (F32.mul (pll_rest freq outdiv) (F32.ofNat 524288))

/-- `unsigned int m2 = m / 0x10000`. -/
def pll_m2 (m : Nat) : Nat := (m / 0x10000) % 2 ^ 16
/-- `unsigned int m1 = (m - m2 * 0x10000) / 0x100`. -/
def pll_m1 (m : Nat) : Nat := ((m - pll_m2 m * 0x10000) / 0x100) % 2 ^ 16
/-- `unsigned int m0 = (m - m2 * 0x10000 - m1 * 0x100)`. -/
def pll_m0 (m : Nat) : Nat := (m - pll_m2 m * 0x10000 - pll_m1 m * 0x100) % 2 ^ 16

/-- `unsigned long channel_increment = 524288 * outdiv * active_shift / (2 * VCXO_FREQ)`:
the product is formed in 32-bit `unsigned long`. -/
def channel_increment (outdiv active_shift : Nat) : Nat :=
  ((524288 * outdiv * active_shift) % 2 ^ 32) / (2 * VCXO_FREQ)

/-- Conversion of an integer to (signed, 8 bit) `char`. -/
def toChar (x : Int) : Int := (x + 128) % 256 - 128

/-- The byte `SPI.transfer` sends for a `char`. -/
def toByte (c : Int) : Nat := (c % 256).toNat

/-- `char c1 = channel_increment / 0x100`. -/
def chan_c1 (ci : Nat) : Int := toChar ((ci / 0x100 : Nat) : Int)
/-- `char c0 = channel_increment - (0x100 * c1)`. -/
def chan_c0 (ci : Nat) : Int := toChar ((ci : Int) - 0x100 * chan_c1 ci)

/-- The array `set_band_property_command`. -/
def set_band_property_command (band : Nat) : List Nat :=
  [0x11, 0x20, 0x01, 0x51, (band + 8) % 256]

/-- The array `set_frequency_property_command`. -/
def set_frequency_property_command (freq outdiv active_shift : Nat) : List Nat :=
  let m := pll_m freq outdiv
  let ci := channel_increment outdiv active_shift
  [0x11, 0x40, 0x06, 0x00, pll_n freq outdiv % 256, pll_m2 m % 256, pll_m1 m % 256,
   pll_m0 m % 256, toByte (chan_c1 ci), toByte (chan_c0 ci)]

/-- The array `set_pa_pwr_lvl_property_command`. -/
def set_pa_pwr_lvl_property_command (active_level : Nat) : List Nat :=
  [0x11, 0x22, 0x01, 0x01, active_level % 256]

/-- `Si446x::sendFrequencyToSi446x`. -/
def sendFrequencyToSi446x (fuel : Nat) (freq : Nat) (s : State) : Option State :=
  let sel := selectBand freq s.outdiv
  let s := { s with outdiv := sel.1 }
  let band := sel.2
  (SendCmdReceiveAnswer fuel 5 1 (arr (set_band_property_command band) s.beyond) s).bind fun s =>
  (SendCmdReceiveAnswer fuel 10 1
    (arr (set_frequency_property_command freq s.outdiv s.active_shift) s.beyond) s).bind fun s =>
  SendCmdReceiveAnswer fuel 5 1 (arr (set_pa_pwr_lvl_property_command s.active_level) s.beyond) s

/-- `float units_per_hz = (0x40000 * outdiv) / (float)VCXO_FREQ`. -/
def units_per_hz (outdiv : Nat) : F32 :=
  F32.div (F32.ofNat (0x40000 * outdiv)) (F32.ofNat VCXO_FREQ)

/-- `unsigned long modem_freq_dev = (unsigned long)(units_per_hz * deviation / 2.0)`. -/
def modem_freq_dev (outdiv deviation : Nat) : Nat :=
  F32.toULong (F32.div (F32.mul (units_per_hz outdiv) (F32.ofNat deviation)) (F32.ofNat 2))

/-- The array `set_modem_freq_dev_command`. -/
def set_modem_freq_dev_command (outdiv deviation : Nat) : List Nat :=
  let w := modem_freq_dev outdiv deviation
  [0x11, 0x20, 0x03, 0x0A, 0xFF &&& (w >>> 16), 0xFF &&& (w >>> 8), 0xFF &&& w]

/-- `Si446x::setDeviation`. -/
def setDeviation (fuel : Nat) (deviation : Nat) (s : State) : Option State :=
  SendCmdReceiveAnswer fuel 7 1 (arr (set_modem_freq_dev_command s.outdiv deviation) s.beyond) s

/-- `Si446x::setPowerLevel`. -/
def setPowerLevel (level : Nat) (s : State) : Bool × State :=
  let success := decide (level > 1 ∧ level < 128)
  (success, { s with active_level := level })

/-- `Si446x::setFrequency`, `fFreq` in MHz. -/
def setFrequency (fFreq : F32) (s : State) : Bool × State :=
  let success := F32.lt (F32.ofNat 119) fFreq && F32.lt fFreq (F32.ofNat 1050)
  (success, { s with active_freq := F32.toULong (F32.mul fFreq (F32.ofNat 1000000)) })

/-- `Si446x::setShift`, `shift` in Hz. -/
def setShift (shift : Nat) (s : State) : Bool × State :=
  let success := decide (shift > 1 ∧ shift < 10000)
  (success, { s with active_shift := shift })

/-! ## Transmit controller -/

/-- `Si446x::setLowTone`. -/
def setLowTone (s : State) : State := digitalWrite GPIO0_PIN Level.LOW s

/-- The window collected so far, as a list of windows. -/
def flush (acc : List Nat) : List (List Nat) := if acc = [] then [] else [acc]

/-- The bytes sent on MOSI, grouped into bus-select windows: the trace is cut at every write
to the select pin `ss`; `acc` holds the bytes of the window being collected. -/
def windowsFrom (ss : Nat) : List Nat → List Event → List (List Nat)
  | acc, [] => flush acc
  | acc, Event.digitalWrite p _ :: t =>
    if p = ss then flush acc ++ windowsFrom ss [] t else windowsFrom ss acc t
  | acc, Event.transfer out _ :: t => windowsFrom ss (acc ++ [out]) t
  | acc, _ :: t => windowsFrom ss acc t

/-- The command frames sent on the bus: the non-empty bus-select windows other than the
one-byte readiness polls `0x44`. -/
def commandFrames (ss : Nat) (t : List Event) : List (List Nat) :=
  (windowsFrom ss [] t).filter (fun w => decide (w ≠ [0x44]))

/-- A device that is always ready. -/
def readyDevice : Nat → Nat := fun _ => 0xFF

/-- A device that answers busy (`0x00`) to the first four transfers and `0xFF` afterwards. -/
def slowDevice : Nat → Nat := fun i => if i < 4 then 0x00 else 0xFF

/-! ## Shape of the traffic of one exchange -/

/-- The transfers of the command loop: `k` bytes from index `j`, the first at clock `c`. -/
def xfers (pData miso : Nat → Nat) : Nat → Nat → Nat → List Event
  | 0, _, _ => []
  | k + 1, j, c =>
    Event.transfer (pData j % 256) (miso c % 256) :: xfers pData miso k (j + 1) (c + 1)

/-- The traffic of `k` failed readiness polls, the first at clock `c`: each poll is followed
by select HIGH, a 20 microsecond wait and select LOW. -/
def failedPolls (pin : Nat) (miso : Nat → Nat) : Nat → Nat → List Event
  | 0, _ => []
  | k + 1, c =>
    Event.transfer 0x44 (miso c % 256) :: Event.digitalWrite pin Level.HIGH ::
      Event.delayMicroseconds 20 :: Event.digitalWrite pin Level.LOW ::
      failedPolls pin miso k (c + 1)

/-- The device answers "busy" to the `k` transfers from clock `c` on. -/
def Busy (miso : Nat → Nat) (c k : Nat) : Prop := ∀ i, i < k → miso (c + i) % 256 ≠ 0xFF

/-- The number of bytes the command loop sends for a given `byteCountTx`. -/
def txCount (byteCountTx : Int) : Nat :=
  (if byteCountTx = 1 then byteCountTx + 1 else byteCountTx).toNat

/-- The whole traffic of one call of `SendCmdReceiveAnswer` that sends `n` bytes from clock
`c` and sees `k` busy answers before the ready byte. -/
def exchangeTrace (pin : Nat) (pData miso : Nat → Nat) (n c k : Nat) : List Event :=
  Event.digitalWrite pin Level.LOW :: xfers pData miso n 0 c ++
    [Event.digitalWrite pin Level.HIGH, Event.delayMicroseconds 20,
     Event.digitalWrite pin Level.LOW] ++
    failedPolls pin miso k (c + n) ++
    [Event.transfer 0x44 0xFF, Event.digitalWrite pin Level.HIGH, Event.delay 50]

/-- The device is ready again and again: after every clock value some later transfer is
answered `0xFF`. -/
def Ready (s : State) : Prop := ∀ c, ∃ k, s.miso (c + k) % 256 = 0xFF

/-- The state `s` with its clock advanced by `d` and the events `ev` appended. -/
def advance (s : State) (d : Nat) (ev : List Event) : State :=
  { s with clock := s.clock + d, trace := s.trace ++ ev }

/-- The bytes the command loop puts on MOSI: `k` bytes of `pData` from index `j`. -/
def txBytes (pData : Nat → Nat) : Nat → Nat → List Nat
  | 0, _ => []
  | k + 1, j => pData j % 256 :: txBytes pData k (j + 1)

/-- Appending the events `ev` to any trace appends the windows `ws` to its windows. -/
def Emits (ss : Nat) (ev : List Event) (ws : List (List Nat)) : Prop :=
  ∀ (acc : List Nat) (t : List Event),
    windowsFrom ss acc (t ++ ev) = windowsFrom ss acc t ++ ws

/-- The state `s'` is reached from `s` by appending events whose command frames are `fs`. -/
def Sends (fs : List (List Nat)) (s s' : State) : Prop :=
  ∃ ev ws, s'.trace = s.trace ++ ev ∧ Emits s.pin ev ws ∧
    ws.filter (fun w => decide (w ≠ [0x44])) = fs

/-- The state `s'` is `s` with further bus traffic that carries the command frames `fs`;
the globals are those of `s`. -/
def Exchanged (fs : List (List Nat)) (s s' : State) : Prop :=
  (∃ d ev, s' = advance s d ev) ∧ Sends fs s s'

/-- The operation `f` returns on every device that is ready again and again, with the same
result for every sufficient poll budget, and leaves the device as it was. -/
def Terminates (f : Nat → State → Option State) : Prop :=
  ∀ s, Ready s → ∃ fuel0 s', s'.miso = s.miso ∧ ∀ fuel, fuel0 ≤ fuel → f fuel s = some s'

/-! ## The specification's formulas -/

/-- The breakpoint table as the specification states it: output divider and band for a
carrier frequency, by the first interval that contains it. -/
def breakpointTable (freqHz : Nat) : Nat × Nat :=
  if freqHz < 177000000 then (24, 5)
  else if freqHz < 239000000 then (16, 4)
  else if freqHz < 353000000 then (12, 3)
  else if freqHz < 525000000 then (8, 2)
  else if freqHz < 705000000 then (6, 1)
  else (4, 0)

/-- The PLL fractional word as the specification states it, with the exact quotient:
`floor((freqHz / fPfd - n) * 524288)`. -/
def exactFractionWord (freqHz fPfd n : Nat) : Int :=
  ⌊((freqHz : ℚ) / fPfd - n) * 524288⌋

/-- The deviation word as the specification states it, with the exact quotient:
`floor(((2^18 * D) / 27000000) * deviationHz / 2)`. -/
def exactDeviationWord (D deviationHz : Nat) : Int :=
  ⌊((2 : ℚ) ^ 18 * D) / 27000000 * deviationHz / 2⌋

/-- The channel increment as the specification states it, as an exact integer:
`floor(524288 * D * s / (2 * 27000000))`. -/
def exactChannelIncrement (D shiftHz : Nat) : Nat :=
  524288 * D * shiftHz / (2 * 27000000)

/-! ## Rounding error of binary32 arithmetic -/

theorem ilog2_spec :
    ∀ (fuel n : Nat), n < 2 ^ fuel → 0 < n →
      2 ^ ilog2 fuel n ≤ n ∧ n < 2 ^ (ilog2 fuel n + 1) := by
  intro fuel
  induction fuel with
  | zero => intro n h1 h2; simp at h1; omega
  | succ f ih =>
    intro n h1 h2
    unfold ilog2
    by_cases h : n < 2
    · simp only [h, if_true]
      constructor
      · simp; omega
      · simp; omega
    · simp only [h, if_false]
      have hpow : 2 ^ (f + 1) = 2 * 2 ^ f := by rw [pow_succ]; ring
      have h3 : n / 2 < 2 ^ f := by omega
      obtain ⟨i1, i2⟩ := ih (n / 2) h3 (by omega)
      have e1 : 2 ^ (ilog2 f (n / 2) + 1) = 2 * 2 ^ ilog2 f (n / 2) := by rw [pow_succ]; ring
      have e2 : 2 ^ (ilog2 f (n / 2) + 1 + 1) = 2 * 2 ^ (ilog2 f (n / 2) + 1) := by
        rw [pow_succ]; ring
      constructor
      · rw [e1]; omega
      · rw [e2]; omega

theorem ilog2_self (n : Nat) (hn : 0 < n) :
    2 ^ ilog2 n n ≤ n ∧ n < 2 ^ (ilog2 n n + 1) :=
  ilog2_spec n n (Nat.lt_two_pow n) hn

theorem expOf_le (num den : Nat) (hn : 0 < num) (hd : 0 < den) :
    (2 : ℚ) ^ expOf num den ≤ (num : ℚ) / den := by
  obtain ⟨a1, _⟩ := ilog2_self num hn
  obtain ⟨_, b2⟩ := ilog2_self den hd
  have hdq : (0 : ℚ) < den := by exact_mod_cast hd
  unfold expOf
  simp only
  split_ifs with h
  · rw [zpow_sub₀ (by norm_num), zpow_natCast, zpow_natCast, div_le_div_iff₀ (by positivity) hdq]
    have : ((den * 2 ^ ilog2 num num : Nat) : ℚ) ≤ ((num * 2 ^ ilog2 den den : Nat) : ℚ) := by
      exact_mod_cast h
    push_cast at this
    linarith
  · have e : ((ilog2 num num : Int) - (ilog2 den den : Int) - 1) =
        (ilog2 num num : Int) - ((ilog2 den den + 1 : Nat) : Int) := by push_cast; ring
    rw [e, zpow_sub₀ (by norm_num), zpow_natCast, zpow_natCast,
      div_le_div_iff₀ (by positivity) hdq]
    have h1 : ((2 ^ ilog2 num num : Nat) : ℚ) ≤ (num : ℚ) := by exact_mod_cast a1
    have h2 : ((den : Nat) : ℚ) ≤ ((2 ^ (ilog2 den den + 1) : Nat) : ℚ) := by
      exact_mod_cast b2.le
    push_cast at h1 h2
    have hnq : (0 : ℚ) ≤ num := by positivity
    have hp : (0 : ℚ) ≤ 2 ^ ilog2 num num := by positivity
    nlinarith [mul_le_mul h1 h2 (by positivity) hnq]

theorem divRoundEven_bounds (a b : Nat) (hb : 0 < b) :
    (a : ℚ) / b - 1 ≤ divRoundEven a b ∧ (divRoundEven a b : ℚ) ≤ (a : ℚ) / b + 1 := by
  have hbq : (0 : ℚ) < b := by exact_mod_cast hb
  have hdm : (a : ℚ) = b * (a / b : Nat) + (a % b : Nat) := by
    exact_mod_cast (Nat.div_add_mod a b).symm
  have hr : ((a % b : Nat) : ℚ) < b := by exact_mod_cast Nat.mod_lt a hb
  have hr0 : (0 : ℚ) ≤ ((a % b : Nat) : ℚ) := by positivity
  have hq : (a : ℚ) / b = (a / b : Nat) + ((a % b : Nat) : ℚ) / b := by
    field_simp; linarith
  have hf1 : ((a % b : Nat) : ℚ) / b < 1 := by rw [div_lt_one hbq]; exact hr
  have hf0 : (0 : ℚ) ≤ ((a % b : Nat) : ℚ) / b := by positivity
  have hcases : divRoundEven a b = a / b ∨ divRoundEven a b = a / b + 1 := by
    unfold divRoundEven
    simp only
    split_ifs <;> simp
  rcases hcases with h | h
  · rw [h, hq]; constructor <;> linarith
  · rw [h, hq]; push_cast; constructor <;> linarith

/-- The rounding error of `round24`: the result has the requested sign and its magnitude
is within a relative error of `2^-23` of the exact value. -/
theorem round24_bounds (neg : Bool) (num den : Nat) (s : Int) (hn : 0 < num) (hd : 0 < den) :
    (round24 neg num den s).neg = neg ∧
    (num : ℚ) / den * 2 ^ s * (1 - eps) ≤ (round24 neg num den s).mag ∧
    (round24 neg num den s).mag ≤ (num : ℚ) / den * 2 ^ s * (1 + eps) := by
  have hx := expOf_le num den hn hd
  have hdq : (0 : ℚ) < den := by exact_mod_cast hd
  have hnq : (0 : ℚ) < num := by exact_mod_cast hn
  have h2 : ∀ z : Int, (0 : ℚ) < 2 ^ z := fun z => zpow_pos (by norm_num) z
  -- the scaled value and its lower bound
  have hy : (2 : ℚ) ^ (23 : Int) ≤ (num : ℚ) / den / 2 ^ (expOf num den - 23) := by
    rw [le_div_iff₀ (h2 _), ← zpow_add₀ (by norm_num)]
    simpa using hx
  -- the significand is within one of the scaled value
  have hman : ∃ man : Nat, round24 neg num den s = ⟨neg, man, expOf num den - 23 + s⟩ ∧
      (num : ℚ) / den / 2 ^ (expOf num den - 23) - 1 ≤ man ∧
      (man : ℚ) ≤ (num : ℚ) / den / 2 ^ (expOf num den - 23) + 1 := by
    unfold round24
    simp only [Nat.ne_of_gt hn, if_false]
    by_cases hsh : 0 ≤ expOf num den - 23
    · simp only [hsh, if_true]
      refine ⟨_, rfl, ?_⟩
      have hb := divRoundEven_bounds num (den * 2 ^ (expOf num den - 23).toNat)
        (Nat.mul_pos hd (pow_pos (by norm_num) _))
      have e : (2 : ℚ) ^ (expOf num den - 23) = 2 ^ (expOf num den - 23).toNat := by
        rw [← zpow_natCast, Int.toNat_of_nonneg hsh]
      rw [e, div_div]
      push_cast at hb
      exact hb
    · simp only [hsh, if_false]
      refine ⟨_, rfl, ?_⟩
      have hb := divRoundEven_bounds (num * 2 ^ (-(expOf num den - 23)).toNat) den hd
      have e : (2 : ℚ) ^ (expOf num den - 23) = (2 ^ (-(expOf num den - 23)).toNat)⁻¹ := by
        rw [← zpow_natCast, Int.toNat_of_nonneg (by omega), zpow_neg, inv_inv]
      rw [e, div_inv_eq_mul, div_mul_eq_mul_div]
      push_cast at hb
      exact hb
  obtain ⟨man, hr, hlo, hhi⟩ := hman
  rw [hr]
  refine ⟨rfl, ?_, ?_⟩
  · simp only [F32.mag]
    rw [zpow_add₀ (by norm_num)]
    have hp := h2 (expOf num den - 23)
    have hs := h2 s
    set y := (num : ℚ) / den / 2 ^ (expOf num den - 23) with hydef
    have hxy : (num : ℚ) / den = y * 2 ^ (expOf num den - 23) := by
      rw [hydef]; field_simp; ring
    rw [hxy]
    have h23 : (2 : ℚ) ^ (23 : Int) = 8388608 := by norm_num
    have hm : y * (1 - eps) ≤ man := by
      unfold eps; rw [h23] at hy; nlinarith
    have := mul_le_mul_of_nonneg_right hm (mul_pos hp hs).le
    nlinarith
  · simp only [F32.mag]
    rw [zpow_add₀ (by norm_num)]
    have hp := h2 (expOf num den - 23)
    have hs := h2 s
    set y := (num : ℚ) / den / 2 ^ (expOf num den - 23) with hydef
    have hxy : (num : ℚ) / den = y * 2 ^ (expOf num den - 23) := by
      rw [hydef]; field_simp; ring
    rw [hxy]
    have h23 : (2 : ℚ) ^ (23 : Int) = 8388608 := by norm_num
    have hm : (man : ℚ) ≤ y * (1 + eps) := by
      unfold eps; rw [h23] at hy; nlinarith
    have := mul_le_mul_of_nonneg_right hm (mul_pos hp hs).le
    nlinarith

theorem round24_neg (neg : Bool) (num den : Nat) (s : Int) :
    (round24 neg num den s).neg = neg := by
  unfold round24
  split_ifs <;> rfl

theorem round24_zero (neg : Bool) (den : Nat) (s : Int) :
    (round24 neg 0 den s).mag = 0 := by
  simp [round24, F32.mag]

theorem eps_pos : (0 : ℚ) < eps := by norm_num [eps]

theorem eps_lt_one : eps < 1 := by norm_num [eps]

/-- A positive magnitude has a positive significand. -/
theorem man_pos_of_mag_pos {a : F32} (h : 0 < a.mag) : 0 < a.man := by
  rcases Nat.eq_zero_or_pos a.man with h0 | h0
  · simp [F32.mag, h0] at h
  · exact h0

theorem ofNat_bounds (n : Nat) (hn : 0 < n) :
    (F32.ofNat n).neg = false ∧ (n : ℚ) * (1 - eps) ≤ (F32.ofNat n).mag ∧
      (F32.ofNat n).mag ≤ (n : ℚ) * (1 + eps) := by
  have h := round24_bounds false n 1 0 hn Nat.one_pos
  simpa [F32.ofNat] using h

theorem div_bounds (a b : F32) (ha : 0 < a.man) (hb : 0 < b.man) :
    a.mag / b.mag * (1 - eps) ≤ (F32.div a b).mag ∧
      (F32.div a b).mag ≤ a.mag / b.mag * (1 + eps) := by
  have h := (round24_bounds (xor a.neg b.neg) a.man b.man (a.exp - b.exp) ha hb).2
  have hbq : (0 : ℚ) < b.man := by exact_mod_cast hb
  have e : (a.man : ℚ) / b.man * 2 ^ (a.exp - b.exp) = a.mag / b.mag := by
    unfold F32.mag
    rw [zpow_sub₀ (by norm_num)]
    have : (0 : ℚ) < 2 ^ b.exp := zpow_pos (by norm_num) _
    field_simp
  rw [e] at h
  exact h

theorem mul_bounds (a b : F32) (ha : 0 < a.man) (hb : 0 < b.man) :
    a.mag * b.mag * (1 - eps) ≤ (F32.mul a b).mag ∧
      (F32.mul a b).mag ≤ a.mag * b.mag * (1 + eps) := by
  have h := (round24_bounds (xor a.neg b.neg) (a.man * b.man) 1 (a.exp + b.exp)
    (Nat.mul_pos ha hb) Nat.one_pos).2
  have e : ((a.man * b.man : Nat) : ℚ) / (1 : Nat) * 2 ^ (a.exp + b.exp) = a.mag * b.mag := by
    unfold F32.mag
    rw [zpow_add₀ (by norm_num)]
    push_cast
    ring
  rw [e] at h
  exact h

theorem mul_mag_le (a b : F32) : (F32.mul a b).mag ≤ a.mag * b.mag * (1 + eps) := by
  have hmag : ∀ c : F32, 0 ≤ c.mag := fun c => by
    unfold F32.mag; have : (0 : ℚ) < 2 ^ c.exp := zpow_pos (by norm_num) _; positivity
  rcases Nat.eq_zero_or_pos a.man with ha | ha
  · have : (F32.mul a b).mag = 0 := by simp [F32.mul, ha, round24_zero]
    rw [this]
    have := mul_nonneg (mul_nonneg (hmag a) (hmag b)) (by linarith [eps_pos] : (0 : ℚ) ≤ 1 + eps)
    exact this
  · rcases Nat.eq_zero_or_pos b.man with hb | hb
    · have : (F32.mul a b).mag = 0 := by simp [F32.mul, hb, round24_zero]
      rw [this]
      exact mul_nonneg (mul_nonneg (hmag a) (hmag b)) (by linarith [eps_pos])
    · exact (mul_bounds a b ha hb).2

/-- A significand moved to a smaller exponent keeps its value. -/
theorem aligned (m : Nat) (x e : Int) (h : e ≤ x) :
    ((m * 2 ^ (x - e).toNat : Nat) : ℚ) * 2 ^ e = (m : ℚ) * 2 ^ x := by
  have e1 : (2 : ℚ) ^ x = 2 ^ ((x - e).toNat : Int) * 2 ^ e := by
    rw [← zpow_add₀ (by norm_num), Int.toNat_of_nonneg (by omega)]
    congr 1; ring
  rw [e1, zpow_natCast]
  push_cast
  ring

/-- Subtraction of two non-negative values: a negative result is flagged as such, and
otherwise the magnitude is at most the exact difference with its rounding error. -/
theorem sub_bounds (a b : F32) (ha : a.neg = false) (hb : b.neg = false) :
    (F32.sub a b).neg = true ∨
      ((F32.sub a b).neg = false ∧ (F32.sub a b).mag ≤ (a.mag - b.mag) * (1 + eps) ∧
        0 ≤ a.mag - b.mag) := by
  have hA := aligned a.man a.exp (min a.exp b.exp) (min_le_left _ _)
  have hB := aligned b.man b.exp (min a.exp b.exp) (min_le_right _ _)
  have hp : (0 : ℚ) < 2 ^ (min a.exp b.exp) := zpow_pos (by norm_num) _
  unfold F32.sub
  simp only [F32.sman, ha, hb, Bool.false_eq_true, if_false]
  set A : Nat := a.man * 2 ^ (a.exp - min a.exp b.exp).toNat with hAdef
  set B : Nat := b.man * 2 ^ (b.exp - min a.exp b.exp).toNat with hBdef
  have hAe : ((a.man : Int) * 2 ^ (a.exp - min a.exp b.exp).toNat) = (A : Int) := by
    rw [hAdef]; push_cast; rfl
  have hBe : ((b.man : Int) * 2 ^ (b.exp - min a.exp b.exp).toNat) = (B : Int) := by
    rw [hBdef]; push_cast; rfl
  rw [hAe, hBe]
  have hmagA : a.mag = (A : ℚ) * 2 ^ (min a.exp b.exp) := by rw [F32.mag, ← hA]
  have hmagB : b.mag = (B : ℚ) * 2 ^ (min a.exp b.exp) := by rw [F32.mag, ← hB]
  by_cases hlt : (A : Int) - B < 0
  · left
    rw [round24_neg]
    simpa using hlt
  · right
    have hBA : B ≤ A := by omega
    have hd : ((A : Int) - B).natAbs = A - B := by omega
    have hAB : (0 : ℚ) ≤ (A : ℚ) - B := by
      have : (B : ℚ) ≤ A := by exact_mod_cast hBA
      linarith
    refine ⟨by rw [round24_neg]; simpa using hlt, ?_, ?_⟩
    · rw [hd, hmagA, hmagB]
      rcases Nat.eq_zero_or_pos (A - B) with h0 | h0
      · rw [h0, round24_zero]
        have := mul_nonneg (mul_nonneg hAB hp.le) (by linarith [eps_pos] : (0 : ℚ) ≤ 1 + eps)
        linarith
      · have h := (round24_bounds (decide ((A : Int) - B < 0)) (A - B) 1
          (min a.exp b.exp) h0 Nat.one_pos).2.2
        have hc : ((A - B : Nat) : ℚ) = (A : ℚ) - B := by
          rw [Nat.cast_sub hBA]
        rw [hc] at h
        simp only [Nat.cast_one, div_one] at h
        calc _ ≤ ((A : ℚ) - B) * 2 ^ min a.exp b.exp * (1 + eps) := h
          _ = _ := by ring
    · rw [hmagA, hmagB]
      have := mul_nonneg hAB hp.le
      linarith

theorem trunc_le_mag (a : F32) : (a.trunc : ℚ) ≤ a.mag := by
  unfold F32.trunc F32.mag
  split_ifs with h
  · have e : (2 : ℚ) ^ a.exp = 2 ^ a.exp.toNat := by
      rw [← zpow_natCast, Int.toNat_of_nonneg h]
    rw [e]; push_cast; exact le_refl _
  · have e : (2 : ℚ) ^ a.exp = (2 ^ (-a.exp).toNat)⁻¹ := by
      rw [← zpow_natCast, Int.toNat_of_nonneg (by omega), zpow_neg, inv_inv]
    rw [e, ← div_eq_mul_inv]
    have := @Nat.cast_div_le ℚ _ a.man (2 ^ (-a.exp).toNat)
    push_cast at this
    exact this

theorem toULong_le_mag (a : F32) : (a.toULong : ℚ) ≤ a.mag := by
  have hmag : 0 ≤ a.mag := by
    unfold F32.mag; have : (0 : ℚ) < 2 ^ a.exp := zpow_pos (by norm_num) _; positivity
  unfold F32.toULong
  split_ifs
  · simpa using hmag
  · calc ((a.trunc % 2 ^ 32 : Nat) : ℚ) ≤ (a.trunc : ℚ) := by
          exact_mod_cast Nat.mod_le _ _
      _ ≤ a.mag := trunc_le_mag a

theorem mag_nonneg (a : F32) : 0 ≤ a.mag := by
  unfold F32.mag
  have : (0 : ℚ) < 2 ^ a.exp := zpow_pos (by norm_num) _
  positivity

theorem ofNat_neg (n : Nat) : (F32.ofNat n).neg = false := round24_neg _ _ _ _

theorem ofNat_lower (n : Nat) : (n : ℚ) * (1 - eps) ≤ (F32.ofNat n).mag := by
  rcases Nat.eq_zero_or_pos n with h | h
  · subst h; simpa using mag_nonneg (F32.ofNat 0)
  · exact (ofNat_bounds n h).2.1

theorem ofNat_upper (n : Nat) : (F32.ofNat n).mag ≤ (n : ℚ) * (1 + eps) := by
  rcases Nat.eq_zero_or_pos n with h | h
  · subst h
    have : (F32.ofNat 0).mag = 0 := round24_zero _ _ _
    simp [this]
  · exact (ofNat_bounds n h).2.2

theorem ofNat_man_pos (n : Nat) (h : 0 < n) : 0 < (F32.ofNat n).man := by
  apply man_pos_of_mag_pos
  have h1 := ofNat_lower n
  have hn : (0 : ℚ) < n := by exact_mod_cast h
  have : (0 : ℚ) < n * (1 - eps) := mul_pos hn (by linarith [eps_lt_one])
  linarith

theorem pll_product_aux (freq D fp q : Nat) (hfpdef : f_pfd D = fp) (hqdef : q = freq / fp)
    (hfp : 0 < fp) (h1 : 1 ≤ q) (h2 : q ≤ 65535) :
    (pll_rest freq D).neg = true ∨
      (F32.mul (pll_rest freq D) (F32.ofNat 524288)).mag < 2097152 := by
  have hn : pll_n freq D = q - 1 := by unfold pll_n; rw [hfpdef, ← hqdef]; omega
  have hfreq : 0 < freq := by
    rcases Nat.eq_zero_or_pos freq with h | h
    · rw [hqdef, h, Nat.zero_div] at h1; omega
    · exact h
  have hfpq : (0 : ℚ) < fp := by exact_mod_cast hfp
  have hfq : (0 : ℚ) < freq := by exact_mod_cast hfreq
  -- the exact quotient
  have hx2 : (freq : ℚ) / fp < q + 1 := by
    rw [div_lt_iff₀ hfpq]
    have : freq < fp * (q + 1) := by rw [hqdef]; exact Nat.lt_mul_div_succ freq hfp
    have hc : (freq : ℚ) < (fp : ℚ) * ((q : ℚ) + 1) := by exact_mod_cast this
    linarith
  have hqq : (q : ℚ) ≤ 65535 := by exact_mod_cast h2
  have hq1 : (1 : ℚ) ≤ q := by exact_mod_cast h1
  have hnq : ((pll_n freq D : Nat) : ℚ) = (q : ℚ) - 1 := by
    rw [hn, Nat.cast_sub h1]; simp
  -- the operands
  have ha := ofNat_upper freq
  have hb := ofNat_lower fp
  have hb0 : (0 : ℚ) < (fp : ℚ) * (1 - eps) := mul_pos hfpq (by linarith [eps_lt_one])
  have hbpos : 0 < (F32.ofNat fp).mag := lt_of_lt_of_le hb0 hb
  have hr := (div_bounds (F32.ofNat freq) (F32.ofNat fp) (ofNat_man_pos freq hfreq)
    (ofNat_man_pos fp hfp)).2
  have hratio : (pll_ratio freq D).mag ≤ (q : ℚ) + 1 + 1 / 16 := by
    have e1 : (F32.ofNat freq).mag / (F32.ofNat fp).mag ≤
        (freq : ℚ) * (1 + eps) / ((fp : ℚ) * (1 - eps)) :=
      div_le_div₀ (mul_nonneg hfq.le (by linarith [eps_pos])) ha hb0 hb
    have e2 : (freq : ℚ) * (1 + eps) / ((fp : ℚ) * (1 - eps)) =
        (freq : ℚ) / fp * ((1 + eps) / (1 - eps)) := by
      have : (1 : ℚ) - eps ≠ 0 := by norm_num [eps]
      field_simp
    have e3 : (1 + eps) / (1 - eps) * (1 + eps) ≤ 1 + 4 * eps := by norm_num [eps]
    have hx0 : (0 : ℚ) ≤ (freq : ℚ) / fp := div_nonneg hfq.le hfpq.le
    have e4 : (pll_ratio freq D).mag ≤ (freq : ℚ) / fp * (1 + 4 * eps) := by
      unfold pll_ratio
      rw [hfpdef]
      calc _ ≤ (F32.ofNat freq).mag / (F32.ofNat fp).mag * (1 + eps) := hr
        _ ≤ (freq : ℚ) / fp * ((1 + eps) / (1 - eps)) * (1 + eps) := by
            rw [← e2]
            exact mul_le_mul_of_nonneg_right e1 (by linarith [eps_pos])
        _ = (freq : ℚ) / fp * ((1 + eps) / (1 - eps) * (1 + eps)) := by ring
        _ ≤ (freq : ℚ) / fp * (1 + 4 * eps) := mul_le_mul_of_nonneg_left e3 hx0
    have e5 : (freq : ℚ) / fp * (1 + 4 * eps) ≤ (q : ℚ) + 1 + 1 / 16 := by
      have : (freq : ℚ) / fp * (4 * eps) ≤ 65536 * (4 * eps) :=
        mul_le_mul_of_nonneg_right (by linarith) (by norm_num [eps])
      have h16 : (65536 : ℚ) * (4 * eps) ≤ 1 / 16 := by norm_num [eps]
      linarith
    linarith
  have hc := ofNat_lower (pll_n freq D)
  have hc' : (q : ℚ) - 1 - 1 / 16 ≤ (F32.ofNat (pll_n freq D)).mag := by
    rw [hnq] at hc
    have : ((q : ℚ) - 1) * eps ≤ 65535 * eps :=
      mul_le_mul_of_nonneg_right (by linarith) eps_pos.le
    have h16 : (65535 : ℚ) * eps ≤ 1 / 16 := by norm_num [eps]
    have e : ((q : ℚ) - 1) * (1 - eps) = (q : ℚ) - 1 - ((q : ℚ) - 1) * eps := by ring
    rw [e] at hc
    linarith
  have hrneg : (pll_ratio freq D).neg = false := by
    unfold pll_ratio F32.div
    rw [round24_neg, ofNat_neg, ofNat_neg]; rfl
  have hk := ofNat_upper 524288
  rcases sub_bounds (pll_ratio freq D) (F32.ofNat (pll_n freq D)) hrneg (ofNat_neg _) with
    hneg | ⟨_, hmag, hd0⟩
  · left; exact hneg
  · right
    have hrest : (pll_rest freq D).mag ≤ 11 / 5 := by
      unfold pll_rest
      have : (pll_ratio freq D).mag - (F32.ofNat (pll_n freq D)).mag ≤ 2 + 1 / 8 := by
        linarith
      calc _ ≤ ((pll_ratio freq D).mag - (F32.ofNat (pll_n freq D)).mag) * (1 + eps) := hmag
        _ ≤ (2 + 1 / 8) * (1 + eps) := mul_le_mul_of_nonneg_right this (by linarith [eps_pos])
        _ ≤ 11 / 5 := by norm_num [eps]
    have hm := mul_mag_le (pll_rest freq D) (F32.ofNat 524288)
    have hprod : (pll_rest freq D).mag * (F32.ofNat 524288).mag ≤ 11 / 5 * (524288 * (1 + eps)) :=
      mul_le_mul hrest hk (mag_nonneg _) (by norm_num)
    calc _ ≤ (pll_rest freq D).mag * (F32.ofNat 524288).mag * (1 + eps) := hm
      _ ≤ 11 / 5 * (524288 * (1 + eps)) * (1 + eps) :=
          mul_le_mul_of_nonneg_right hprod (by linarith [eps_pos])
      _ < 2097152 := by norm_num [eps]

/-- The fractional word computed in `float` stays below `2^21` whenever the integer
quotient `freq / f_pfd` is between 1 and 65535. -/
theorem pll_m_bound (freq D : Nat) (hfp : 0 < f_pfd D) (h1 : 1 ≤ freq / f_pfd D)
    (h2 : freq / f_pfd D ≤ 65535) : pll_m freq D < 2 ^ 21 := by
  have hlt : ((pll_m freq D : Nat) : ℚ) < 2097152 := by
    unfold pll_m
    rcases pll_product_aux freq D (f_pfd D) (freq / f_pfd D) rfl rfl hfp h1 h2 with hneg | hmag
    · have : (F32.mul (pll_rest freq D) (F32.ofNat 524288)).neg = true := by
        unfold F32.mul
        rw [round24_neg, hneg, ofNat_neg]; rfl
      simp [F32.toULong, this]
    · exact lt_of_le_of_lt (toULong_le_mag _) hmag
  have : pll_m freq D < 2097152 := by exact_mod_cast hlt
  simpa using this

/-- The value of a triple from its signed significand on a smaller exponent. -/
theorem toRat_aligned (a : F32) (e : Int) (h : e ≤ a.exp) :
    ((a.sman * 2 ^ (a.exp - e).toNat : Int) : ℚ) * 2 ^ e = a.toRat := by
  have h1 := aligned a.man a.exp e h
  push_cast at h1
  unfold F32.sman F32.toRat
  cases a.neg
  · simp only [Bool.false_eq_true, if_false, one_mul]
    push_cast
    linarith
  · simp only [if_true]
    push_cast
    linarith

/-- The comparison of two triples is the comparison of their values. -/
theorem lt_iff (a b : F32) : F32.lt a b = true ↔ a.toRat < b.toRat := by
  have hA := toRat_aligned a (min a.exp b.exp) (min_le_left _ _)
  have hB := toRat_aligned b (min a.exp b.exp) (min_le_right _ _)
  have hp : (0 : ℚ) < 2 ^ (min a.exp b.exp) := zpow_pos (by norm_num) _
  unfold F32.lt
  simp only [decide_eq_true_eq]
  rw [← hA, ← hB, mul_lt_mul_right hp]
  exact Int.cast_lt.symm

theorem ofNat_119 : (F32.ofNat 119).toRat = 119 := by
  have h : F32.ofNat 119 = ⟨false, 15597568, -17⟩ := by decide
  rw [h]
  norm_num [F32.toRat]

theorem ofNat_1050 : (F32.ofNat 1050).toRat = 1050 := by
  have h : F32.ofNat 1050 = ⟨false, 8601600, -13⟩ := by decide
  rw [h]
  norm_num [F32.toRat]

theorem div_mag_le (a b : F32) (hb : 0 < b.man) :
    (F32.div a b).mag ≤ a.mag / b.mag * (1 + eps) := by
  rcases Nat.eq_zero_or_pos a.man with ha | ha
  · have h0 : (F32.div a b).mag = 0 := by simp [F32.div, ha, round24_zero]
    have ha0 : a.mag = 0 := by simp [F32.mag, ha]
    rw [h0, ha0]; simp
  · exact (div_bounds a b ha hb).2

/-- A non-negative value below `2^32` converts to its truncation. -/
theorem inULongRange_of_mag_lt (a : F32) (hn : a.neg = false) (h : a.mag < 4294967296) :
    a.inULongRange ∧ a.toULong = a.trunc := by
  have ht : a.trunc < 2 ^ 32 := by
    have h1 := trunc_le_mag a
    have : (a.trunc : ℚ) < 4294967296 := lt_of_le_of_lt h1 h
    have : a.trunc < 4294967296 := by exact_mod_cast this
    simpa using this
  refine ⟨⟨hn, ht⟩, ?_⟩
  unfold F32.toULong
  rw [if_neg (by simp [hn]), Nat.mod_eq_of_lt ht]

/-- Subtraction of two non-negative values with the first at least the second is not
negative. -/
theorem sub_nonneg (a b : F32) (ha : a.neg = false) (hb : b.neg = false)
    (h : b.mag ≤ a.mag) : (F32.sub a b).neg = false := by
  have hA := aligned a.man a.exp (min a.exp b.exp) (min_le_left _ _)
  have hB := aligned b.man b.exp (min a.exp b.exp) (min_le_right _ _)
  have hp : (0 : ℚ) < 2 ^ (min a.exp b.exp) := zpow_pos (by norm_num) _
  unfold F32.sub
  simp only [F32.sman, ha, hb, Bool.false_eq_true, if_false]
  rw [round24_neg]
  simp only [decide_eq_false_iff_not, not_lt]
  have hle : ((b.man * 2 ^ (b.exp - min a.exp b.exp).toNat : Nat) : ℚ) ≤
      ((a.man * 2 ^ (a.exp - min a.exp b.exp).toNat : Nat) : ℚ) := by
    have h' : b.mag ≤ a.mag := h
    unfold F32.mag at h'
    rw [← hA, ← hB] at h'
    exact le_of_mul_le_mul_right h' hp
  have hle' : b.man * 2 ^ (b.exp - min a.exp b.exp).toNat ≤
      a.man * 2 ^ (a.exp - min a.exp b.exp).toNat := by exact_mod_cast hle
  have : ((b.man * 2 ^ (b.exp - min a.exp b.exp).toNat : Nat) : Int) ≤
      ((a.man * 2 ^ (a.exp - min a.exp b.exp).toNat : Nat) : Int) := by exact_mod_cast hle'
  push_cast at this
  linarith

theorem pll_rest_nonneg_aux (freq D fp q : Nat) (hfpdef : f_pfd D = fp)
    (hqdef : q = freq / fp) (hfp : 0 < fp) (h1 : 1 ≤ q) (h2 : q ≤ 65535) :
    (pll_rest freq D).neg = false := by
  have hn : pll_n freq D = q - 1 := by unfold pll_n; rw [hfpdef, ← hqdef]; omega
  have hfreq : 0 < freq := by
    rcases Nat.eq_zero_or_pos freq with h | h
    · rw [hqdef, h, Nat.zero_div] at h1; omega
    · exact h
  have hfpq : (0 : ℚ) < fp := by exact_mod_cast hfp
  have hfq : (0 : ℚ) < freq := by exact_mod_cast hfreq
  have hx1 : (q : ℚ) ≤ (freq : ℚ) / fp := by
    rw [le_div_iff₀ hfpq]
    have : q * fp ≤ freq := by rw [hqdef]; exact Nat.div_mul_le_self freq fp
    exact_mod_cast this
  have hqq : (q : ℚ) ≤ 65535 := by exact_mod_cast h2
  have hq1 : (1 : ℚ) ≤ q := by exact_mod_cast h1
  have hnq : ((pll_n freq D : Nat) : ℚ) = (q : ℚ) - 1 := by
    rw [hn, Nat.cast_sub h1]; simp
  have ha := ofNat_lower freq
  have hb := ofNat_upper fp
  have hbpos : 0 < (F32.ofNat fp).mag :=
    lt_of_lt_of_le (mul_pos hfpq (by linarith [eps_lt_one])) (ofNat_lower fp)
  have hr := (div_bounds (F32.ofNat freq) (F32.ofNat fp) (ofNat_man_pos freq hfreq)
    (ofNat_man_pos fp hfp)).1
  have hratio : (q : ℚ) - 1 / 16 ≤ (pll_ratio freq D).mag := by
    have e1 : (freq : ℚ) * (1 - eps) / ((fp : ℚ) * (1 + eps)) ≤
        (F32.ofNat freq).mag / (F32.ofNat fp).mag :=
      div_le_div₀ (mag_nonneg _) ha hbpos hb
    have e2 : (freq : ℚ) * (1 - eps) / ((fp : ℚ) * (1 + eps)) =
        (freq : ℚ) / fp * ((1 - eps) / (1 + eps)) := by
      have : (1 : ℚ) + eps ≠ 0 := by norm_num [eps]
      field_simp
    have e3 : 1 - 4 * eps ≤ (1 - eps) / (1 + eps) * (1 - eps) := by norm_num [eps]
    have hx0 : (0 : ℚ) ≤ (freq : ℚ) / fp := div_nonneg hfq.le hfpq.le
    have e4 : (freq : ℚ) / fp * (1 - 4 * eps) ≤ (pll_ratio freq D).mag := by
      unfold pll_ratio
      rw [hfpdef]
      calc (freq : ℚ) / fp * (1 - 4 * eps)
          ≤ (freq : ℚ) / fp * ((1 - eps) / (1 + eps) * (1 - eps)) :=
            mul_le_mul_of_nonneg_left e3 hx0
        _ = (freq : ℚ) / fp * ((1 - eps) / (1 + eps)) * (1 - eps) := by ring
        _ ≤ (F32.ofNat freq).mag / (F32.ofNat fp).mag * (1 - eps) := by
            rw [← e2]
            exact mul_le_mul_of_nonneg_right e1 (by linarith [eps_lt_one])
        _ ≤ _ := hr
    have e5 : (q : ℚ) * (1 - 4 * eps) ≤ (freq : ℚ) / fp * (1 - 4 * eps) :=
      mul_le_mul_of_nonneg_right hx1 (by norm_num [eps])
    have e6 : (q : ℚ) * (4 * eps) ≤ 65535 * (4 * eps) :=
      mul_le_mul_of_nonneg_right hqq (by norm_num [eps])
    have h16 : (65535 : ℚ) * (4 * eps) ≤ 1 / 16 := by norm_num [eps]
    have e7 : (q : ℚ) * (1 - 4 * eps) = (q : ℚ) - (q : ℚ) * (4 * eps) := by ring
    linarith
  have hc := ofNat_upper (pll_n freq D)
  have hc' : (F32.ofNat (pll_n freq D)).mag ≤ (q : ℚ) - 1 + 1 / 16 := by
    rw [hnq] at hc
    have : ((q : ℚ) - 1) * eps ≤ 65535 * eps :=
      mul_le_mul_of_nonneg_right (by linarith) eps_pos.le
    have h16 : (65535 : ℚ) * eps ≤ 1 / 16 := by norm_num [eps]
    have e : ((q : ℚ) - 1) * (1 + eps) = (q : ℚ) - 1 + ((q : ℚ) - 1) * eps := by ring
    rw [e] at hc
    linarith
  have hrneg : (pll_ratio freq D).neg = false := by
    unfold pll_ratio F32.div
    rw [round24_neg, ofNat_neg, ofNat_neg]; rfl
  unfold pll_rest
  exact sub_nonneg _ _ hrneg (ofNat_neg _) (by linarith)

/-- In the supported range the `float` product `rest * 524288` is not negative and below
`2^21`: its conversion to `unsigned long` is defined and is the plain truncation. -/
theorem pll_m_inRange (freq D : Nat) (hfp : 0 < f_pfd D) (h1 : 1 ≤ freq / f_pfd D)
    (h2 : freq / f_pfd D ≤ 65535) :
    (F32.mul (pll_rest freq D) (F32.ofNat 524288)).inULongRange := by
  have hneg : (F32.mul (pll_rest freq D) (F32.ofNat 524288)).neg = false := by
    unfold F32.mul
    rw [round24_neg, pll_rest_nonneg_aux freq D _ _ rfl rfl hfp h1 h2, ofNat_neg]; rfl
  have hrn := pll_rest_nonneg_aux freq D _ _ rfl rfl hfp h1 h2
  rcases pll_product_aux freq D (f_pfd D) (freq / f_pfd D) rfl rfl hfp h1 h2 with h | hmag
  · rw [hrn] at h; cases h
  · exact (inULongRange_of_mag_lt _ hneg (by linarith)).1

theorem div_neg (a b : F32) : (F32.div a b).neg = xor a.neg b.neg := round24_neg _ _ _ _

theorem mul_neg (a b : F32) : (F32.mul a b).neg = xor a.neg b.neg := round24_neg _ _ _ _

/-- For a divider of at most 24 and a 32-bit deviation, the `float` value
`units_per_hz * deviation / 2.0` is not negative and below `2^32`: its conversion to
`unsigned long` is defined and is the plain truncation. -/
theorem modem_freq_dev_inRange (D dev : Nat) (hD : D ≤ 24) (hdev : dev < 2 ^ 32) :
    (F32.div (F32.mul (units_per_hz D) (F32.ofNat dev)) (F32.ofNat 2)).inULongRange := by
  have hneg : (F32.div (F32.mul (units_per_hz D) (F32.ofNat dev)) (F32.ofNat 2)).neg = false := by
    rw [div_neg, mul_neg, units_per_hz, div_neg, ofNat_neg, ofNat_neg, ofNat_neg, ofNat_neg]
    rfl
  have hDq : (D : ℚ) ≤ 24 := by exact_mod_cast hD
  have hdq : (dev : ℚ) ≤ 4294967296 := by
    have : dev ≤ 4294967296 := by norm_num at hdev; omega
    exact_mod_cast this
  have hd0 : (0 : ℚ) ≤ dev := by positivity
  have hA : (F32.ofNat (0x40000 * D)).mag ≤ 6291456 * (1 + eps) := by
    have h := ofNat_upper (0x40000 * D)
    have : ((0x40000 * D : Nat) : ℚ) ≤ 6291456 := by push_cast; linarith
    calc _ ≤ ((0x40000 * D : Nat) : ℚ) * (1 + eps) := h
      _ ≤ 6291456 * (1 + eps) := mul_le_mul_of_nonneg_right this (by linarith [eps_pos])
  have hB := ofNat_lower VCXO_FREQ
  have hB0 : (0 : ℚ) < (VCXO_FREQ : ℚ) * (1 - eps) := by norm_num [VCXO_FREQ, eps]
  have hu : (units_per_hz D).mag ≤ 1 / 4 := by
    unfold units_per_hz
    calc _ ≤ (F32.ofNat (0x40000 * D)).mag / (F32.ofNat VCXO_FREQ).mag * (1 + eps) :=
          div_mag_le _ _ (ofNat_man_pos _ (by decide))
      _ ≤ 6291456 * (1 + eps) / ((VCXO_FREQ : ℚ) * (1 - eps)) * (1 + eps) :=
          mul_le_mul_of_nonneg_right
            (div_le_div₀ (by norm_num [eps]) hA hB0 hB) (by linarith [eps_pos])
      _ ≤ 1 / 4 := by norm_num [VCXO_FREQ, eps]
  have hv : (F32.ofNat dev).mag ≤ 4294967296 * (1 + eps) :=
    le_trans (ofNat_upper dev) (mul_le_mul_of_nonneg_right hdq (by linarith [eps_pos]))
  have hp : (F32.mul (units_per_hz D) (F32.ofNat dev)).mag ≤
      1 / 4 * (4294967296 * (1 + eps)) * (1 + eps) :=
    le_trans (mul_mag_le _ _)
      (mul_le_mul_of_nonneg_right (mul_le_mul hu hv (mag_nonneg _) (by norm_num))
        (by linarith [eps_pos]))
  have h2 := ofNat_lower 2
  have h20 : (0 : ℚ) < ((2 : Nat) : ℚ) * (1 - eps) := by norm_num [eps]
  have hw : (F32.div (F32.mul (units_per_hz D) (F32.ofNat dev)) (F32.ofNat 2)).mag <
      4294967296 := by
    calc _ ≤ (F32.mul (units_per_hz D) (F32.ofNat dev)).mag / (F32.ofNat 2).mag * (1 + eps) :=
          div_mag_le _ _ (ofNat_man_pos _ (by decide))
      _ ≤ 1 / 4 * (4294967296 * (1 + eps)) * (1 + eps) / (((2 : Nat) : ℚ) * (1 - eps)) *
            (1 + eps) :=
          mul_le_mul_of_nonneg_right
            (div_le_div₀ (by norm_num [eps]) hp h20 h2) (by linarith [eps_pos])
      _ < 4294967296 := by norm_num [eps]
  exact (inULongRange_of_mag_lt _ hneg hw).1

/-- An accepted frequency in MHz times `1000000` converts to `unsigned long` in range. -/
theorem setFrequency_inRange (f : F32) (hlo : 119 < f.toRat) (hhi : f.toRat < 1050) :
    (F32.mul f (F32.ofNat 1000000)).inULongRange := by
  have hp : (0 : ℚ) < 2 ^ f.exp := zpow_pos (by norm_num) _
  have hfn : f.neg = false := by
    cases hn : f.neg
    · rfl
    · exfalso
      have : f.toRat ≤ 0 := by
        unfold F32.toRat
        rw [hn]
        simp only [if_true]
        have : (0 : ℚ) ≤ (f.man : ℚ) * 2 ^ f.exp := by positivity
        linarith
      linarith
  have hmag : f.mag = f.toRat := by
    unfold F32.mag F32.toRat
    rw [hfn]; simp
  have hneg : (F32.mul f (F32.ofNat 1000000)).neg = false := by
    rw [mul_neg, hfn, ofNat_neg]; rfl
  have hk := ofNat_upper 1000000
  have hm : (F32.mul f (F32.ofNat 1000000)).mag < 4294967296 := by
    calc _ ≤ f.mag * (F32.ofNat 1000000).mag * (1 + eps) := mul_mag_le _ _
      _ ≤ 1050 * (((1000000 : Nat) : ℚ) * (1 + eps)) * (1 + eps) :=
          mul_le_mul_of_nonneg_right
            (mul_le_mul (by rw [hmag]; exact hhi.le) hk (mag_nonneg _) (by norm_num))
            (by linarith [eps_pos])
      _ < 4294967296 := by norm_num [eps]
  exact (inULongRange_of_mag_lt _ hneg hm).1

theorem mag_lt_trunc_succ (a : F32) : a.mag < (a.trunc : ℚ) + 1 := by
  unfold F32.trunc F32.mag
  split_ifs with h
  · have e : (2 : ℚ) ^ a.exp = 2 ^ a.exp.toNat := by
      rw [← zpow_natCast, Int.toNat_of_nonneg h]
    rw [e]; push_cast; linarith
  · have e : (2 : ℚ) ^ a.exp = (2 ^ (-a.exp).toNat)⁻¹ := by
      rw [← zpow_natCast, Int.toNat_of_nonneg (by omega), zpow_neg, inv_inv]
    have hk : 0 < 2 ^ (-a.exp).toNat := pow_pos (by norm_num) _
    have hkq : (0 : ℚ) < ((2 ^ (-a.exp).toNat : Nat) : ℚ) := by exact_mod_cast hk
    have hlt := Nat.lt_mul_div_succ a.man hk
    have hltq : (a.man : ℚ) <
        ((2 ^ (-a.exp).toNat : Nat) : ℚ) * (((a.man / 2 ^ (-a.exp).toNat : Nat) : ℚ) + 1) := by
      exact_mod_cast hlt
    rw [e, ← div_eq_mul_inv, div_lt_iff₀ (by positivity)]
    push_cast at hltq ⊢
    linarith

/-- Division of two values known up to relative factors. -/
theorem div_rel (A B : F32) (a b l1 h1 l2 h2 : ℚ) (ha : 0 < a) (hb : 0 < b) (hl1 : 0 < l1)
    (hl2 : 0 < l2) (hA : a * l1 ≤ A.mag ∧ A.mag ≤ a * h1)
    (hB : b * l2 ≤ B.mag ∧ B.mag ≤ b * h2) :
    a / b * (l1 / h2 * (1 - eps)) ≤ (F32.div A B).mag ∧
      (F32.div A B).mag ≤ a / b * (h1 / l2 * (1 + eps)) := by
  have hAp : 0 < A.mag := lt_of_lt_of_le (mul_pos ha hl1) hA.1
  have hBp : 0 < B.mag := lt_of_lt_of_le (mul_pos hb hl2) hB.1
  have hh2 : 0 < h2 := by
    have : b * l2 ≤ b * h2 := le_trans hB.1 hB.2
    have := le_of_mul_le_mul_left this hb
    linarith
  obtain ⟨hlo, hhi⟩ := div_bounds A B (man_pos_of_mag_pos hAp) (man_pos_of_mag_pos hBp)
  have e1 : A.mag / B.mag ≤ a * h1 / (b * l2) :=
    div_le_div₀ (le_trans hAp.le hA.2) hA.2 (mul_pos hb hl2) hB.1
  have e2 : a * l1 / (b * h2) ≤ A.mag / B.mag :=
    div_le_div₀ hAp.le hA.1 hBp hB.2
  have e3 : a * h1 / (b * l2) = a / b * (h1 / l2) := by field_simp
  have e4 : a * l1 / (b * h2) = a / b * (l1 / h2) := by field_simp
  constructor
  · calc a / b * (l1 / h2 * (1 - eps)) = a * l1 / (b * h2) * (1 - eps) := by rw [e4]; ring
      _ ≤ A.mag / B.mag * (1 - eps) :=
          mul_le_mul_of_nonneg_right e2 (by linarith [eps_lt_one])
      _ ≤ _ := hlo
  · calc (F32.div A B).mag ≤ A.mag / B.mag * (1 + eps) := hhi
      _ ≤ a * h1 / (b * l2) * (1 + eps) :=
          mul_le_mul_of_nonneg_right e1 (by linarith [eps_pos])
      _ = a / b * (h1 / l2 * (1 + eps)) := by rw [e3]; ring

/-- Multiplication of two values known up to relative factors. -/
theorem mul_rel (A B : F32) (a b l1 h1 l2 h2 : ℚ) (ha : 0 < a) (hb : 0 < b) (hl1 : 0 < l1)
    (hl2 : 0 < l2) (hA : a * l1 ≤ A.mag ∧ A.mag ≤ a * h1)
    (hB : b * l2 ≤ B.mag ∧ B.mag ≤ b * h2) :
    a * b * (l1 * l2 * (1 - eps)) ≤ (F32.mul A B).mag ∧
      (F32.mul A B).mag ≤ a * b * (h1 * h2 * (1 + eps)) := by
  have hAp : 0 < A.mag := lt_of_lt_of_le (mul_pos ha hl1) hA.1
  have hBp : 0 < B.mag := lt_of_lt_of_le (mul_pos hb hl2) hB.1
  obtain ⟨hlo, hhi⟩ := mul_bounds A B (man_pos_of_mag_pos hAp) (man_pos_of_mag_pos hBp)
  have e1 : A.mag * B.mag ≤ a * h1 * (b * h2) :=
    mul_le_mul hA.2 hB.2 hBp.le (le_trans hAp.le hA.2)
  have e2 : a * l1 * (b * l2) ≤ A.mag * B.mag :=
    mul_le_mul hA.1 hB.1 (mul_pos hb hl2).le hAp.le
  constructor
  · calc a * b * (l1 * l2 * (1 - eps)) = a * l1 * (b * l2) * (1 - eps) := by ring
      _ ≤ A.mag * B.mag * (1 - eps) :=
          mul_le_mul_of_nonneg_right e2 (by linarith [eps_lt_one])
      _ ≤ _ := hlo
  · calc (F32.mul A B).mag ≤ A.mag * B.mag * (1 + eps) := hhi
      _ ≤ a * h1 * (b * h2) * (1 + eps) :=
          mul_le_mul_of_nonneg_right e1 (by linarith [eps_pos])
      _ = a * b * (h1 * h2 * (1 + eps)) := by ring

theorem ofNat_rel (n : Nat) :
    (n : ℚ) * (1 - eps) ≤ (F32.ofNat n).mag ∧ (F32.ofNat n).mag ≤ (n : ℚ) * (1 + eps) :=
  ⟨ofNat_lower n, ofNat_upper n⟩

/-- For a divider of at most 24 and a deviation accepted as a shift (`1 < deviation < 10000`)
the word computed in `float` is within one of the floor of the exact value. -/
theorem modem_freq_dev_near (D dev : Nat) (hD0 : 0 < D) (hD : D ≤ 24) (h1 : 1 < dev)
    (h2 : dev < 10000) :
    exactDeviationWord D dev - 1 ≤ (modem_freq_dev D dev : Int) ∧
      (modem_freq_dev D dev : Int) ≤ exactDeviationWord D dev + 1 := by
  have hr := modem_freq_dev_inRange D dev hD (by norm_num; omega)
  have hDq0 : (0 : ℚ) < D := by exact_mod_cast hD0
  have hDq : (D : ℚ) ≤ 24 := by exact_mod_cast hD
  have hdq0 : (0 : ℚ) < dev := by exact_mod_cast (by omega : 0 < dev)
  have hdq : (dev : ℚ) ≤ 10000 := by exact_mod_cast h2.le
  have he : (0 : ℚ) < 1 - eps := by norm_num [eps]
  -- the chain of operations
  have hu := div_rel (F32.ofNat (0x40000 * D)) (F32.ofNat VCXO_FREQ)
    ((0x40000 * D : Nat) : ℚ) ((VCXO_FREQ : Nat) : ℚ) _ _ _ _
    (by push_cast; positivity) (by norm_num [VCXO_FREQ]) he he (ofNat_rel _) (ofNat_rel _)
  have hp := mul_rel (units_per_hz D) (F32.ofNat dev)
    (((0x40000 * D : Nat) : ℚ) / ((VCXO_FREQ : Nat) : ℚ)) (dev : ℚ) _ _ _ _
    (by push_cast; norm_num [VCXO_FREQ]; positivity) hdq0
    (by norm_num [eps]) he hu (ofNat_rel _)
  have hw := div_rel (F32.mul (units_per_hz D) (F32.ofNat dev)) (F32.ofNat 2)
    (((0x40000 * D : Nat) : ℚ) / ((VCXO_FREQ : Nat) : ℚ) * (dev : ℚ)) ((2 : Nat) : ℚ) _ _ _ _
    (by push_cast; norm_num [VCXO_FREQ]; positivity) (by norm_num)
    (by norm_num [eps]) he hp (ofNat_rel _)
  -- the exact value
  have hx : ((0x40000 * D : Nat) : ℚ) / ((VCXO_FREQ : Nat) : ℚ) * (dev : ℚ) / ((2 : Nat) : ℚ) =
      (2 : ℚ) ^ 18 * D / 27000000 * dev / 2 := by
    push_cast; norm_num [VCXO_FREQ]
  rw [hx] at hw
  set x : ℚ := (2 : ℚ) ^ 18 * D / 27000000 * dev / 2 with hxdef
  have hx0 : 0 ≤ x := by rw [hxdef]; positivity
  have hx1 : x ≤ 1200 := by
    rw [hxdef]
    have : (D : ℚ) * dev ≤ 24 * 10000 := mul_le_mul hDq hdq hdq0.le (by norm_num)
    have e : (2 : ℚ) ^ 18 * D / 27000000 * dev / 2 = (D * dev) * (2 ^ 18 / 54000000) := by ring
    rw [e]
    calc (D : ℚ) * dev * (2 ^ 18 / 54000000) ≤ 24 * 10000 * (2 ^ 18 / 54000000) :=
          mul_le_mul_of_nonneg_right this (by norm_num)
      _ ≤ 1200 := by norm_num
  have hH : (1 + eps) / (1 - eps) * (1 + eps) * (1 + eps) * (1 + eps) / (1 - eps) * (1 + eps) ≤
      1 + 1 / 500000 := by norm_num [eps]
  have hL : 1 - 1 / 500000 ≤
      (1 - eps) / (1 + eps) * (1 - eps) * (1 - eps) * (1 - eps) / (1 + eps) * (1 - eps) := by
    norm_num [eps]
  have hhi : (F32.div (F32.mul (units_per_hz D) (F32.ofNat dev)) (F32.ofNat 2)).mag ≤
      x + 1 / 100 := by
    calc _ ≤ x * ((1 + eps) / (1 - eps) * (1 + eps) * (1 + eps) * (1 + eps) / (1 - eps) *
          (1 + eps)) := by
          refine le_trans hw.2 (le_of_eq ?_)
          ring
      _ ≤ x * (1 + 1 / 500000) := mul_le_mul_of_nonneg_left hH hx0
      _ ≤ x + 1 / 100 := by linarith
  have hlo : x - 1 / 100 ≤
      (F32.div (F32.mul (units_per_hz D) (F32.ofNat dev)) (F32.ofNat 2)).mag := by
    calc x - 1 / 100 ≤ x * (1 - 1 / 500000) := by linarith
      _ ≤ x * ((1 - eps) / (1 + eps) * (1 - eps) * (1 - eps) * (1 - eps) / (1 + eps) *
          (1 - eps)) := mul_le_mul_of_nonneg_left hL hx0
      _ ≤ _ := by
          refine le_trans (le_of_eq ?_) hw.1
          ring
  -- the word is the truncation
  have hword : modem_freq_dev D dev =
      (F32.div (F32.mul (units_per_hz D) (F32.ofNat dev)) (F32.ofNat 2)).trunc := by
    unfold modem_freq_dev F32.toULong
    rw [if_neg (by simp [hr.1]), Nat.mod_eq_of_lt hr.2]
  have ht1 := trunc_le_mag (F32.div (F32.mul (units_per_hz D) (F32.ofNat dev)) (F32.ofNat 2))
  have ht2 := mag_lt_trunc_succ
    (F32.div (F32.mul (units_per_hz D) (F32.ofNat dev)) (F32.ofNat 2))
  rw [← hword] at ht1 ht2
  have hf1 := Int.floor_le x
  have hf2 := Int.lt_floor_add_one x
  have hexact : exactDeviationWord D dev = ⌊x⌋ := rfl
  rw [hexact]
  constructor
  · have : ((⌊x⌋ - 1 : Int) : ℚ) < ((modem_freq_dev D dev : Int) : ℚ) + 1 := by
      push_cast; linarith
    have : (⌊x⌋ - 1 : Int) < (modem_freq_dev D dev : Int) + 1 := by exact_mod_cast this
    omega
  · have : ((modem_freq_dev D dev : Int) : ℚ) < ((⌊x⌋ + 1 : Int) : ℚ) + 1 := by
      push_cast; linarith
    have : (modem_freq_dev D dev : Int) < (⌊x⌋ + 1 : Int) + 1 := by exact_mod_cast this
    omega

/-! ## Transport lemmas -/

theorem writeBytes_eq (p : Nat → Nat) :
    ∀ (k j : Nat) (s : State),
      writeBytes p k j s = advance s k (xfers p s.miso k j s.clock) := by
  intro k
  induction k with
  | zero => intro j s; simp [writeBytes, xfers, advance]
  | succ k ih =>
    intro j s
    rw [writeBytes, ih]
    simp [SPI.transfer, advance, xfers, Nat.add_assoc, Nat.add_comm 1 k]

theorem pollLoop_ready :
    ∀ (k fuel : Nat) (s : State), k < fuel → Busy s.miso s.clock k →
      s.miso (s.clock + k) % 256 = 0xFF →
      pollLoop fuel s =
        some (advance s (k + 1) (failedPolls s.pin s.miso k s.clock ++ [Event.transfer 0x44 0xFF])) := by
  intro k
  induction k with
  | zero =>
    intro fuel s hf _ hr
    obtain ⟨f, rfl⟩ : ∃ f, fuel = f + 1 := ⟨fuel - 1, by omega⟩
    simp only [Nat.add_zero] at hr
    simp [pollLoop, SPI.transfer, hr, advance, failedPolls]
  | succ k ih =>
    intro fuel s hf hb hr
    obtain ⟨f, rfl⟩ : ∃ f, fuel = f + 1 := ⟨fuel - 1, by omega⟩
    have h0 : s.miso s.clock % 256 ≠ 0xFF := by simpa using hb 0 (by omega)
    have hb' : Busy s.miso (s.clock + 1) k := by
      intro i hi
      have := hb (i + 1) (by omega)
      simpa [Nat.add_assoc, Nat.add_comm 1 i] using this
    have hr' : s.miso (s.clock + 1 + k) % 256 = 0xFF := by
      simpa [Nat.add_assoc, Nat.add_comm 1 k] using hr
    rw [pollLoop]
    simp only [SPI.transfer, ne_eq, h0, not_false_eq_true, if_true]
    rw [ih f _ (by omega) (by simpa [digitalWrite, delayMicroseconds] using hb')
      (by simpa [digitalWrite, delayMicroseconds] using hr')]
    simp [digitalWrite, delayMicroseconds, advance, failedPolls, Nat.add_assoc, Nat.add_comm 1 k]
    omega

theorem pollLoop_busy :
    ∀ (fuel : Nat) (s : State), Busy s.miso s.clock fuel → pollLoop fuel s = none := by
  intro fuel
  induction fuel with
  | zero => intro s _; simp [pollLoop]
  | succ f ih =>
    intro s hb
    have h0 : s.miso s.clock % 256 ≠ 0xFF := by simpa using hb 0 (by omega)
    have hb' : Busy s.miso (s.clock + 1) f := by
      intro i hi
      have := hb (i + 1) (by omega)
      simpa [Nat.add_assoc, Nat.add_comm 1 i] using this
    rw [pollLoop]
    simp only [SPI.transfer, ne_eq, h0, not_false_eq_true, if_true]
    exact ih _ (by simpa [digitalWrite, delayMicroseconds] using hb')

/-- Either the first `fuel` answers from clock `c` are all busy, or there is a first ready
answer among them. -/
theorem busy_or_first (miso : Nat → Nat) (c : Nat) :
    ∀ fuel : Nat, Busy miso c fuel ∨
      ∃ k, k < fuel ∧ Busy miso c k ∧ miso (c + k) % 256 = 0xFF := by
  intro fuel
  induction fuel with
  | zero => left; intro i hi; omega
  | succ f ih =>
    rcases ih with hb | ⟨k, hk, hb, hr⟩
    · by_cases h : miso (c + f) % 256 = 0xFF
      · right; exact ⟨f, by omega, hb, h⟩
      · left
        intro i hi
        by_cases hif : i = f
        · subst hif; exact h
        · exact hb i (by omega)
    · right; exact ⟨k, by omega, hb, hr⟩

/-- The state in which the readiness loop of an exchange starts. -/
theorem SendCmd_unfold (fuel : Nat) (N rx : Int) (p : Nat → Nat) (s : State) :
    SendCmdReceiveAnswer fuel N rx p s =
      (pollLoop fuel (advance s (txCount N)
        (Event.digitalWrite s.pin Level.LOW :: xfers p s.miso (txCount N) 0 s.clock ++
          [Event.digitalWrite s.pin Level.HIGH, Event.delayMicroseconds 20,
           Event.digitalWrite s.pin Level.LOW]))).map
        fun s => delay 50 (digitalWrite s.pin Level.HIGH s) := by
  unfold SendCmdReceiveAnswer
  simp only [writeBytes_eq, txCount]
  congr 2
  simp [digitalWrite, delayMicroseconds, advance]

theorem SendCmd_ready {k fuel : Nat} (N rx : Int) (p : Nat → Nat) (s : State) (hf : k < fuel)
    (hb : Busy s.miso (s.clock + txCount N) k)
    (hr : s.miso (s.clock + txCount N + k) % 256 = 0xFF) :
    SendCmdReceiveAnswer fuel N rx p s =
      some (advance s (txCount N + k + 1)
        (exchangeTrace s.pin p s.miso (txCount N) s.clock k)) := by
  rw [SendCmd_unfold, pollLoop_ready k fuel _ hf (by simpa [advance] using hb)
    (by simpa [advance] using hr)]
  simp [advance, delay, digitalWrite, exchangeTrace, Nat.add_assoc]

theorem SendCmd_busy {fuel : Nat} (N rx : Int) (p : Nat → Nat) (s : State)
    (hb : Busy s.miso (s.clock + txCount N) fuel) :
    SendCmdReceiveAnswer fuel N rx p s = none := by
  rw [SendCmd_unfold, pollLoop_busy fuel _ (by simpa [advance] using hb)]
  rfl

theorem SendCmd_some {fuel : Nat} {N rx : Int} {p : Nat → Nat} {s s' : State}
    (h : SendCmdReceiveAnswer fuel N rx p s = some s') :
    ∃ k, k < fuel ∧ Busy s.miso (s.clock + txCount N) k ∧
      s.miso (s.clock + txCount N + k) % 256 = 0xFF ∧
      s' = advance s (txCount N + k + 1) (exchangeTrace s.pin p s.miso (txCount N) s.clock k) := by
  rcases busy_or_first s.miso (s.clock + txCount N) fuel with hb | ⟨k, hk, hb, hr⟩
  · rw [SendCmd_busy N rx p s hb] at h; cases h
  · rw [SendCmd_ready N rx p s hk hb hr] at h
    exact ⟨k, hk, hb, hr, (Option.some.inj h).symm⟩

theorem windowsFrom_split (ss : Nat) (v : Level) (b : List Event) :
    ∀ (a : List Event) (acc : List Nat),
      windowsFrom ss acc (a ++ Event.digitalWrite ss v :: b) =
        windowsFrom ss acc a ++ windowsFrom ss [] b := by
  intro a
  induction a with
  | nil => intro acc; simp [windowsFrom]
  | cons e a ih =>
    intro acc
    cases e with
    | pinMode q => simpa [windowsFrom] using ih acc
    | digitalWrite q w =>
      by_cases hq : q = ss
      · simp [windowsFrom, hq, ih, List.append_assoc]
      · simpa [windowsFrom, hq] using ih acc
    | transfer o r => simpa [windowsFrom] using ih (acc ++ [o])
    | delayMicroseconds u => simpa [windowsFrom] using ih acc
    | delay m => simpa [windowsFrom] using ih acc

theorem windowsFrom_xfers (ss : Nat) (p miso : Nat → Nat) (v : Level) (b : List Event) :
    ∀ (k j c : Nat) (acc : List Nat),
      windowsFrom ss acc (xfers p miso k j c ++ Event.digitalWrite ss v :: b) =
        flush (acc ++ txBytes p k j) ++ windowsFrom ss [] b := by
  intro k
  induction k with
  | zero => intro j c acc; simp [xfers, txBytes, windowsFrom]
  | succ k ih =>
    intro j c acc
    simp [xfers, txBytes, windowsFrom, ih, List.append_assoc]

theorem windowsFrom_polls (ss : Nat) (miso : Nat → Nat) :
    ∀ (k c : Nat),
      windowsFrom ss [] (failedPolls ss miso k c ++
        [Event.transfer 0x44 0xFF, Event.digitalWrite ss Level.HIGH, Event.delay 50]) =
        List.replicate (k + 1) [0x44] := by
  intro k
  induction k with
  | zero => intro c; simp [failedPolls, windowsFrom, flush]
  | succ k ih =>
    intro c
    have h := ih (c + 1)
    simp only [failedPolls, List.cons_append, windowsFrom, List.nil_append, if_true]
    simp [flush, List.replicate_succ]
    simpa [List.replicate_succ] using h

theorem emits_append {ss : Nat} {e1 e2 : List Event} {w1 w2 : List (List Nat)}
    (h1 : Emits ss e1 w1) (h2 : Emits ss e2 w2) : Emits ss (e1 ++ e2) (w1 ++ w2) := by
  intro acc t
  rw [← List.append_assoc, h2, h1, List.append_assoc]

theorem emits_exchange (ss : Nat) (p miso : Nat → Nat) (n c k : Nat) :
    Emits ss (exchangeTrace ss p miso n c k)
      (flush (txBytes p n 0) ++ List.replicate (k + 1) [0x44]) := by
  intro acc t
  unfold exchangeTrace
  simp only [List.cons_append, List.append_assoc, List.nil_append]
  rw [windowsFrom_split, windowsFrom_xfers]
  simp only [List.nil_append, windowsFrom, if_true]
  rw [windowsFrom_polls]
  simp [flush]

theorem sends_frames {fs : List (List Nat)} {s s' : State} (h : Sends fs s s') :
    commandFrames s.pin s'.trace = commandFrames s.pin s.trace ++ fs := by
  obtain ⟨ev, ws, ht, he, hf⟩ := h
  unfold commandFrames
  rw [ht, he, List.filter_append, hf]

theorem sends_trans {f1 f2 : List (List Nat)} {s s1 s2 : State} (h1 : Sends f1 s s1)
    (hp : s1.pin = s.pin) (h2 : Sends f2 s1 s2) : Sends (f1 ++ f2) s s2 := by
  obtain ⟨e1, w1, ht1, he1, hf1⟩ := h1
  obtain ⟨e2, w2, ht2, he2, hf2⟩ := h2
  refine ⟨e1 ++ e2, w1 ++ w2, ?_, emits_append he1 (hp ▸ he2), ?_⟩
  · rw [ht2, ht1, List.append_assoc]
  · rw [List.filter_append, hf1, hf2]

theorem filter_polls (k : Nat) :
    (List.replicate k [0x44]).filter (fun w => decide (w ≠ [0x44])) = [] := by
  induction k with
  | zero => rfl
  | succ k ih => simp [List.replicate_succ]

/-- One exchange that sends the bytes `bs`, not a lone `0x44`, sends the command frame `bs`. -/
theorem sends_exchange (s : State) (p : Nat → Nat) (n k d : Nat) (bs : List Nat)
    (hbs : txBytes p n 0 = bs) (hne : bs ≠ []) (h44 : bs ≠ [0x44]) :
    Sends [bs] s (advance s d (exchangeTrace s.pin p s.miso n s.clock k)) := by
  refine ⟨_, _, rfl, emits_exchange s.pin p s.miso n s.clock k, ?_⟩
  rw [hbs, List.filter_append, filter_polls]
  simp [flush, hne, h44]

theorem xfers_eq_map (p miso : Nat → Nat) :
    ∀ (n j c : Nat), xfers p miso n j c =
      (List.range n).map (fun i => Event.transfer (p (j + i) % 256) (miso (c + i) % 256)) := by
  intro n
  induction n with
  | zero => intro j c; rfl
  | succ n ih =>
    intro j c
    rw [xfers, ih, List.range_succ_eq_map]
    simp [Function.comp_def, Nat.add_assoc, Nat.add_comm 1]

theorem getD_append_self (x : Nat) (l : List Nat) (d : Nat) :
    ∀ pre : List Nat, (pre ++ x :: l).getD pre.length d = x := by
  intro pre
  induction pre with
  | nil => rfl
  | cons y pre ih => simpa [List.getD_cons_succ] using ih

theorem txBytes_arr (b : Nat → Nat) :
    ∀ (l pre : List Nat),
      txBytes (arr (pre ++ l) b) l.length pre.length = l.map (fun x => x % 256) := by
  intro l
  induction l with
  | nil => intro pre; rfl
  | cons x l ih =>
    intro pre
    have h := ih (pre ++ [x])
    simp only [List.append_assoc, List.singleton_append, List.length_append, List.length_singleton]
      at h
    have hx : (pre ++ x :: l).getD pre.length (b pre.length) = x :=
      getD_append_self x l _ pre
    rw [List.length_cons, txBytes, h]
    simp only [arr, hx, List.map_cons]

theorem txBytes_arr_bytes (b : Nat → Nat) (l : List Nat) (hl : ∀ x ∈ l, x < 256) :
    txBytes (arr l b) l.length 0 = l := by
  have h := txBytes_arr b l []
  simp only [List.nil_append, List.length_nil] at h
  rw [h]
  calc l.map (fun x => x % 256) = l.map id :=
        List.map_congr_left (fun x hx => Nat.mod_eq_of_lt (hl x hx))
    _ = l := List.map_id l

/-- An exchange of a command array of `txCount N` bytes sends exactly that frame. -/
theorem SendCmd_arr {fuel : Nat} {N rx : Int} {l : List Nat} {s s' : State} (b : Nat → Nat)
    (hN : txCount N = l.length) (hl : ∀ x ∈ l, x < 256) (hne : l ≠ []) (h44 : l ≠ [0x44])
    (h : SendCmdReceiveAnswer fuel N rx (arr l b) s = some s') : Exchanged [l] s s' := by
  obtain ⟨k, _, _, _, rfl⟩ := SendCmd_some h
  refine ⟨⟨_, _, rfl⟩, sends_exchange s _ _ k _ l ?_ hne h44⟩
  rw [hN]
  exact txBytes_arr_bytes b l hl

/-! ## Termination on a ready device -/

theorem terminates_SendCmd (N rx : State → Int) (p : State → Nat → Nat) :
    Terminates (fun fuel s => SendCmdReceiveAnswer fuel (N s) (rx s) (p s) s) := by
  intro s hs
  obtain ⟨k0, hk0⟩ := hs (s.clock + txCount (N s))
  rcases busy_or_first s.miso (s.clock + txCount (N s)) (k0 + 1) with hb | ⟨k, _, hb, hr⟩
  · exact absurd hk0 (hb k0 (by omega))
  · refine ⟨k + 1, _, ?_, fun fuel hf => SendCmd_ready (N s) (rx s) (p s) s (by omega) hb hr⟩
    rfl

theorem terminates_bind {f g : Nat → State → Option State} (hf : Terminates f)
    (hg : Terminates g) : Terminates (fun fuel s => (f fuel s).bind (g fuel)) := by
  intro s hs
  obtain ⟨n1, s1, hm1, h1⟩ := hf s hs
  have hs1 : Ready s1 := by intro c; rw [hm1]; exact hs c
  obtain ⟨n2, s2, hm2, h2⟩ := hg s1 hs1
  refine ⟨max n1 n2, s2, hm2.trans hm1, fun fuel hfuel => ?_⟩
  simp only [h1 fuel (le_trans (le_max_left n1 n2) hfuel), Option.some_bind,
    h2 fuel (le_trans (le_max_right n1 n2) hfuel)]

theorem terminates_sendFrequency (freq : State → Nat) :
    Terminates (fun fuel s => sendFrequencyToSi446x fuel (freq s) s) := by
  intro s hs
  have h := terminates_bind
    (terminates_SendCmd (fun _ => 5) (fun _ => 1)
      (fun t => arr (set_band_property_command (selectBand (freq s) s.outdiv).2) t.beyond))
    (terminates_bind
      (terminates_SendCmd (fun _ => 10) (fun _ => 1)
        (fun t => arr (set_frequency_property_command (freq s) t.outdiv t.active_shift)
          t.beyond))
      (terminates_SendCmd (fun _ => 5) (fun _ => 1)
        (fun t => arr (set_pa_pwr_lvl_property_command t.active_level) t.beyond)))
  exact h { s with outdiv := (selectBand (freq s) s.outdiv).1 } hs

theorem terminates_setDeviation (dev : State → Nat) :
    Terminates (fun fuel s => setDeviation fuel (dev s) s) := by
  unfold setDeviation
  exact terminates_SendCmd _ _ _

theorem toByte_lt (c : Int) : toByte c < 256 := by
  unfold toByte
  omega

theorem band_frame_bytes (band : Nat) : ∀ x ∈ set_band_property_command band, x < 256 := by
  intro x hx
  simp only [set_band_property_command, List.mem_cons, List.mem_singleton, List.not_mem_nil,
    or_false] at hx
  rcases hx with rfl | rfl | rfl | rfl | rfl <;>
    omega

theorem ten_bytes (n m2 m1 m0 : Nat) (c1 c0 : Int) :
    ∀ x ∈ [0x11, 0x40, 0x06, 0x00, n % 256, m2 % 256, m1 % 256, m0 % 256, toByte c1, toByte c0],
      x < 256 := by
  intro x hx
  have h1 := toByte_lt c1
  have h0 := toByte_lt c0
  simp only [List.mem_cons, List.mem_singleton, List.not_mem_nil, or_false] at hx
  omega

theorem freq_frame_bytes (freq outdiv shift : Nat) :
    ∀ x ∈ set_frequency_property_command freq outdiv shift, x < 256 :=
  ten_bytes _ _ _ _ _ _

theorem pwr_frame_bytes (level : Nat) :
    ∀ x ∈ set_pa_pwr_lvl_property_command level, x < 256 := by
  intro x hx
  simp only [set_pa_pwr_lvl_property_command, List.mem_cons, List.mem_singleton,
    List.not_mem_nil, or_false] at hx
  rcases hx with rfl | rfl | rfl | rfl | rfl <;>
    omega

theorem and_255 (x : Nat) : 0xFF &&& x = x % 256 := by
  rw [Nat.and_comm]
  exact Nat.and_pow_two_sub_one_eq_mod x 8

theorem dev_frame_bytes (outdiv dev : Nat) :
    ∀ x ∈ set_modem_freq_dev_command outdiv dev, x < 256 := by
  intro x hx
  simp only [set_modem_freq_dev_command, List.mem_cons, List.mem_singleton,
    List.not_mem_nil, or_false, and_255] at hx
  rcases hx with rfl | rfl | rfl | rfl | rfl | rfl | rfl <;>
    omega

/-- What a returning call of `sendFrequencyToSi446x` has done: the global `outdiv` is the
selected one and the three property frames went out, in order. -/
theorem sendFrequency_some {fuel freq : Nat} {s s' : State}
    (h : sendFrequencyToSi446x fuel freq s = some s') :
    s'.outdiv = (selectBand freq s.outdiv).1 ∧
    Exchanged
      [set_band_property_command (selectBand freq s.outdiv).2,
       set_frequency_property_command freq (selectBand freq s.outdiv).1 s.active_shift,
       set_pa_pwr_lvl_property_command s.active_level]
      { s with outdiv := (selectBand freq s.outdiv).1 } s' := by
  unfold sendFrequencyToSi446x at h
  obtain ⟨t1, ht1, h⟩ := Option.bind_eq_some.mp h
  obtain ⟨t2, ht2, ht3⟩ := Option.bind_eq_some.mp h
  have e1 := SendCmd_arr _ (by rfl) (band_frame_bytes _) (by simp [set_band_property_command])
    (by simp [set_band_property_command]) ht1
  have e2 := SendCmd_arr _ (by rfl) (freq_frame_bytes _ _ _)
    (by simp [set_frequency_property_command]) (by simp [set_frequency_property_command]) ht2
  have e3 := SendCmd_arr _ (by rfl) (pwr_frame_bytes _)
    (by simp [set_pa_pwr_lvl_property_command]) (by simp [set_pa_pwr_lvl_property_command]) ht3
  obtain ⟨⟨d1, v1, rfl⟩, hs1⟩ := e1
  obtain ⟨⟨d2, v2, rfl⟩, hs2⟩ := e2
  obtain ⟨⟨d3, v3, rfl⟩, hs3⟩ := e3
  refine ⟨rfl, ⟨⟨d1 + d2 + d3, v1 ++ v2 ++ v3, ?_⟩, ?_⟩⟩
  · simp [advance, Nat.add_assoc]
  · exact sends_trans (sends_trans hs1 rfl hs2) rfl hs3

theorem setDeviation_some {fuel dev : Nat} {s s' : State}
    (h : setDeviation fuel dev s = some s') :
    Exchanged [set_modem_freq_dev_command s.outdiv dev] s s' := by
  unfold setDeviation at h
  exact SendCmd_arr _ (by rfl) (dev_frame_bytes _ _)
    (by simp [set_modem_freq_dev_command]) (by simp [set_modem_freq_dev_command]) h

theorem selectBand_startup (freq : Nat) : selectBand freq 4 = breakpointTable freq := by
  simp only [selectBand, breakpointTable]

/-- The phase-detector frequency and the integer quotient for the divider of the
breakpoint table, for a carrier between 119 MHz and 1050 MHz. -/
theorem table_facts (freq : Nat) (hlo : 119000000 < freq) (hhi : freq < 1050000000) :
    f_pfd (breakpointTable freq).1 = 2 * 27000000 / (breakpointTable freq).1 ∧
    0 < f_pfd (breakpointTable freq).1 ∧
    52 ≤ freq / f_pfd (breakpointTable freq).1 ∧ freq / f_pfd (breakpointTable freq).1 ≤ 78 := by
  unfold breakpointTable
  split_ifs <;> simp only [f_pfd, VCXO_FREQ] <;> norm_num <;> omega

theorem pll_bytes (m : Nat) (hm : m < 2 ^ 21) :
    pll_m2 m % 256 * 65536 + pll_m1 m % 256 * 256 + pll_m0 m % 256 = m := by
  unfold pll_m0 pll_m1 pll_m2
  norm_num at hm ⊢
  omega

/-- The divider left by `sendFrequencyToSi446x`, from any prior state: the table value below
705 MHz, the prior value from 705 MHz on. -/
theorem outdiv_after_sendFrequency {fuel freq : Nat} {s s' : State}
    (h : sendFrequencyToSi446x fuel freq s = some s') :
    s'.outdiv = if freq < 705000000 then (breakpointTable freq).1 else s.outdiv := by
  rw [(sendFrequency_some h).1]
  simp only [selectBand, breakpointTable]
  split_ifs <;> first | rfl | omega

/-- The channel increment is the exact quotient as long as the product fits in 32 bits. -/
theorem channel_increment_exact (D shift : Nat) (h : 524288 * D * shift < 2 ^ 32) :
    channel_increment D shift = exactChannelIncrement D shift := by
  unfold channel_increment exactChannelIncrement VCXO_FREQ
  rw [Nat.mod_eq_of_lt h]

set_option maxRecDepth 100000

/-! ## Transport: readiness handshake and erratum padding -/

/-- C3 (readiness handshake of `SendCmdReceiveAnswer`).  For every command and every
device whose first `0xFF` among the readiness answers is at index `k` (the answers with
index below `k` are not `0xFF`): with any budget of more than `k` polls the call returns,
it has made `k + 1` transfers after the command phase, and its traffic is the command phase,
select LOW, then `k` times a poll `0x44` with a busy answer followed by select HIGH, a wait
of 20 microseconds and select LOW, then the poll `0x44` answered `0xFF` followed only by
select HIGH and the 50 ms delay; with `k` polls or fewer the call has not returned.  On a
device that never answers `0xFF` the call never returns, and whenever the call returns
its last transfer is a poll answered `0xFF`. -/
theorem C3_readiness_handshake (N rx : Int) (p : Nat → Nat) (s : State) :
    (∀ k, Busy s.miso (s.clock + txCount N) k →
        s.miso (s.clock + txCount N + k) % 256 = 0xFF →
        (∀ fuel, k < fuel → ∃ s', SendCmdReceiveAnswer fuel N rx p s = some s' ∧
          s'.clock = s.clock + txCount N + (k + 1) ∧
          s'.trace = s.trace ++
            (Event.digitalWrite s.pin Level.LOW :: xfers p s.miso (txCount N) 0 s.clock ++
              [Event.digitalWrite s.pin Level.HIGH, Event.delayMicroseconds 20,
               Event.digitalWrite s.pin Level.LOW] ++
              failedPolls s.pin s.miso k (s.clock + txCount N) ++
              [Event.transfer 0x44 0xFF, Event.digitalWrite s.pin Level.HIGH,
               Event.delay 50])) ∧
        (∀ fuel, fuel ≤ k → SendCmdReceiveAnswer fuel N rx p s = none)) ∧
    ((∀ i, s.miso (s.clock + txCount N + i) % 256 ≠ 0xFF) →
        ∀ fuel, SendCmdReceiveAnswer fuel N rx p s = none) ∧
    (∀ fuel s', SendCmdReceiveAnswer fuel N rx p s = some s' →
        ∃ pre, s'.trace = pre ++
          [Event.transfer 0x44 0xFF, Event.digitalWrite s.pin Level.HIGH, Event.delay 50]) := by
  refine ⟨fun k hb hr => ⟨fun fuel hf => ?_, fun fuel hf => ?_⟩, fun hn fuel => ?_,
    fun fuel s' h => ?_⟩
  · refine ⟨_, SendCmd_ready N rx p s hf hb hr, ?_, ?_⟩
    · simp [advance, Nat.add_assoc]
    · simp [advance, exchangeTrace]
  · exact SendCmd_busy N rx p s (fun i hi => hb i (by omega))
  · exact SendCmd_busy N rx p s (fun i _ => hn i)
  · obtain ⟨k, _, _, _, rfl⟩ := SendCmd_some h
    refine ⟨s.trace ++ (Event.digitalWrite s.pin Level.LOW ::
      xfers p s.miso (txCount N) 0 s.clock ++
      [Event.digitalWrite s.pin Level.HIGH, Event.delayMicroseconds 20,
       Event.digitalWrite s.pin Level.LOW] ++
      failedPolls s.pin s.miso k (s.clock + txCount N)), ?_⟩
    simp [advance, exchangeTrace]

/-- C3 witness: the change-state command `{0x34, 0x03}` on a device whose third readiness
answer is the first `0xFF` returns after exactly three polls, the first two each followed by
select HIGH, 20 microseconds, select LOW. -/
theorem C3_readiness_handshake_witness :
    ∃ s', SendCmdReceiveAnswer 3 2 1 (arr [0x34, 0x03] readyDevice)
        (startup 10 slowDevice readyDevice) = some s' ∧
      s'.clock = 5 ∧
      s'.trace =
        [Event.pinMode 10, Event.digitalWrite 10 Level.HIGH,
         Event.digitalWrite 10 Level.LOW, Event.transfer 0x34 0x00, Event.transfer 0x03 0x00,
         Event.digitalWrite 10 Level.HIGH, Event.delayMicroseconds 20,
         Event.digitalWrite 10 Level.LOW,
         Event.transfer 0x44 0x00, Event.digitalWrite 10 Level.HIGH,
         Event.delayMicroseconds 20, Event.digitalWrite 10 Level.LOW,
         Event.transfer 0x44 0x00, Event.digitalWrite 10 Level.HIGH,
         Event.delayMicroseconds 20, Event.digitalWrite 10 Level.LOW,
         Event.transfer 0x44 0xFF, Event.digitalWrite 10 Level.HIGH, Event.delay 50] :=
  ((C3_readiness_handshake 2 1 (arr [0x34, 0x03] readyDevice)
    (startup 10 slowDevice readyDevice)).1 2
      (by intro i hi; interval_cases i <;> decide) (by decide)).1 3 (by decide)

/-- C4 (erratum padding in the command phase of `SendCmdReceiveAnswer`).  Whenever a call
with `byteCountTx = 1` returns, its traffic starts with select LOW, exactly two transfers,
the first of them the opcode `pData[0]`, then select HIGH and a wait of 20 microseconds;
whenever a call with `byteCountTx = N ≥ 2` returns, its traffic starts with select LOW, the
`N` transfers of `pData[0..N-1]` in order, select HIGH and a wait of 20 microseconds.  On a
device that is ready again and again the call returns. -/
theorem C4_erratum_padding (rx : Int) (p : Nat → Nat) (s : State) :
    (∀ fuel s', SendCmdReceiveAnswer fuel 1 rx p s = some s' →
      ∃ tail, s'.trace = s.trace ++
        [Event.digitalWrite s.pin Level.LOW,
         Event.transfer (p 0 % 256) (s.miso s.clock % 256),
         Event.transfer (p 1 % 256) (s.miso (s.clock + 1) % 256),
         Event.digitalWrite s.pin Level.HIGH, Event.delayMicroseconds 20] ++ tail) ∧
    (∀ N : Nat, 2 ≤ N → ∀ fuel s', SendCmdReceiveAnswer fuel (N : Int) rx p s = some s' →
      ∃ tail, s'.trace = s.trace ++
        (Event.digitalWrite s.pin Level.LOW ::
          (List.range N).map
            (fun j => Event.transfer (p j % 256) (s.miso (s.clock + j) % 256)) ++
          [Event.digitalWrite s.pin Level.HIGH, Event.delayMicroseconds 20]) ++ tail) ∧
    (∀ N : Int, Ready s → ∃ fuel s', SendCmdReceiveAnswer fuel N rx p s = some s') := by
  refine ⟨fun fuel s' h => ?_, fun N hN fuel s' h => ?_, fun N hs => ?_⟩
  · obtain ⟨k, _, _, _, rfl⟩ := SendCmd_some h
    refine ⟨Event.digitalWrite s.pin Level.LOW :: (failedPolls s.pin s.miso k (s.clock + 2) ++
      [Event.transfer 0x44 0xFF, Event.digitalWrite s.pin Level.HIGH, Event.delay 50]), ?_⟩
    have h1 : txCount 1 = 2 := by decide
    simp [advance, exchangeTrace, h1, xfers]
  · obtain ⟨k, _, _, _, rfl⟩ := SendCmd_some h
    refine ⟨Event.digitalWrite s.pin Level.LOW :: (failedPolls s.pin s.miso k (s.clock + N) ++
      [Event.transfer 0x44 0xFF, Event.digitalWrite s.pin Level.HIGH, Event.delay 50]), ?_⟩
    have h1 : txCount (N : Int) = N := by
      unfold txCount
      have : ¬ ((N : Int) = 1) := by omega
      simp [this]
    simp [advance, exchangeTrace, h1, xfers_eq_map]
  · obtain ⟨n, s', _, h⟩ := terminates_SendCmd (fun _ => N) (fun _ => rx) (fun _ => p) s hs
    exact ⟨n, s', h n (le_refl n)⟩

/-- C4 witness: the identity query `{0x01}` sent with `byteCountTx = 1` puts two bytes on
the bus, the opcode `0x01` and the byte that follows the array in memory (here `0xAB`). -/
theorem C4_erratum_padding_witness :
    ∃ tail, Option.map State.trace
        (SendCmdReceiveAnswer 1 1 9 (arr [0x01] (fun _ => 0xAB))
          (startup 10 readyDevice (fun _ => 0xAB))) =
      some ([Event.pinMode 10, Event.digitalWrite 10 Level.HIGH] ++
        [Event.digitalWrite 10 Level.LOW, Event.transfer 0x01 0xFF, Event.transfer 0xAB 0xFF,
         Event.digitalWrite 10 Level.HIGH, Event.delayMicroseconds 20] ++ tail) := by
  have hsome : ∃ s', SendCmdReceiveAnswer 1 1 9 (arr [0x01] (fun _ => 0xAB))
      (startup 10 readyDevice (fun _ => 0xAB)) = some s' :=
    ⟨_, SendCmd_ready 1 9 _ _ (Nat.lt_succ_self 0) (fun i hi => absurd hi (Nat.not_lt_zero i))
      (by decide)⟩
  obtain ⟨s', hs'⟩ := hsome
  obtain ⟨tail, ht⟩ := (C4_erratum_padding 9 (arr [0x01] (fun _ => 0xAB))
    (startup 10 readyDevice (fun _ => 0xAB))).1 1 s' hs'
  exact ⟨tail, by rw [hs']; simpa [startup, arr, readyDevice] using ht⟩

/-! ## Transmit controller -/

/-- C1 (band and output divider selection).  Starting from a state whose global output
divider is the startup value 4, for every carrier frequency: `sendFrequencyToSi446x`
returns on a device that is ready again and again, and whenever it returns the output
divider is the one of the breakpoint table (24/5 below 177 MHz, 16/4 below 239 MHz, 12/3
below 353 MHz, 8/2 below 525 MHz, 6/1 below 705 MHz, 4/0 from 705 MHz on) and the first of
the three frames it sends is the band property frame `{0x11,0x20,0x01,0x51,band+8}`. -/
theorem C1_band_selection (freq : Nat) (s : State) (h0 : s.outdiv = 4) :
    (Ready s → ∃ fuel s', sendFrequencyToSi446x fuel freq s = some s') ∧
    (∀ fuel s', sendFrequencyToSi446x fuel freq s = some s' →
      s'.outdiv = (breakpointTable freq).1 ∧
      ∃ f2 f3, commandFrames s.pin s'.trace = commandFrames s.pin s.trace ++
        [[0x11, 0x20, 0x01, 0x51, (breakpointTable freq).2 + 8], f2, f3]) := by
  constructor
  · intro hs
    obtain ⟨n, s', _, h⟩ := terminates_sendFrequency (fun _ => freq) s hs
    exact ⟨n, s', h n (le_refl n)⟩
  · intro fuel s' h
    obtain ⟨ho, _, hsend⟩ := sendFrequency_some h
    rw [h0, selectBand_startup] at ho hsend
    refine ⟨ho, set_frequency_property_command freq (breakpointTable freq).1 s.active_shift,
      set_pa_pwr_lvl_property_command s.active_level, ?_⟩
    have hf := sends_frames hsend
    have hb : (breakpointTable freq).2 + 8 < 256 := by
      unfold breakpointTable; split_ifs <;> simp
    rw [set_band_property_command, Nat.mod_eq_of_lt hb] at hf
    exact hf

/-- C1 witness: from the startup state, 433550000 Hz selects divider 8 and band 2 (frame
byte 10), and 177000000 Hz exactly selects divider 16 and band 4. -/
theorem C1_band_selection_witness :
    (startup 10 readyDevice readyDevice).outdiv = 4 ∧
    breakpointTable 433550000 = (8, 2) ∧ breakpointTable 177000000 = (16, 4) ∧
    selectBand 433550000 4 = (8, 2) ∧ selectBand 177000000 4 = (16, 4) ∧
    ∃ fuel s', sendFrequencyToSi446x fuel 433550000 (startup 10 readyDevice readyDevice) =
        some s' ∧
      s'.outdiv = (breakpointTable 433550000).1 ∧
      ∃ f2 f3, commandFrames 10 s'.trace =
        commandFrames 10 (startup 10 readyDevice readyDevice).trace ++
          [[0x11, 0x20, 0x01, 0x51, (breakpointTable 433550000).2 + 8], f2, f3] := by
  have hr : Ready (startup 10 readyDevice readyDevice) := fun _ => ⟨0, rfl⟩
  obtain ⟨fuel, s', h⟩ := (C1_band_selection 433550000 _ rfl).1 hr
  exact ⟨rfl, by decide, by decide, by decide, by decide, fuel, s', h,
    (C1_band_selection 433550000 _ rfl).2 fuel s' h⟩

/-- C6 at its failing input: from the startup state on an always-ready device,
`sendFrequencyToSi446x(433550000)` then `sendFrequencyToSi446x(868000000)` then
`setDeviation(400)`.  The second call sends band 0 (frame byte 8), the band of the table's
divider 4 for 868 MHz, but leaves the global output divider at the first call's 8: the
PLL word `n = 127` and the channel increment 31 are those of divider 8 (divider 4 gives 63
and 15), and the deviation word sent is 15, the one of divider 8 (divider 4 gives 7). -/
theorem C6_stale_divider :
    breakpointTable 868000000 = (4, 0) ∧
    ((sendFrequencyToSi446x 1 433550000 (startup 10 readyDevice readyDevice)).bind fun s1 =>
      (sendFrequencyToSi446x 1 868000000 s1).bind fun s2 =>
        (setDeviation 1 400 s2).map fun s3 =>
          (s2.outdiv, (commandFrames 10 s3.trace).drop 3)) =
      some (8, [[0x11, 0x20, 0x01, 0x51, 8],
                [0x11, 0x40, 0x06, 0x00, 127, 12, 189, 160, 0, 31],
                [0x11, 0x22, 0x01, 0x01, 20],
                [0x11, 0x20, 0x03, 0x0A, 0, 0, 15]]) ∧
    set_frequency_property_command 868000000 4 400 =
      [0x11, 0x40, 0x06, 0x00, 63, 10, 94, 208, 0, 15] ∧
    set_modem_freq_dev_command 4 400 = [0x11, 0x20, 0x03, 0x0A, 0, 0, 7] := by
  refine ⟨by decide, by decide, by decide, by decide⟩

/-! ## Frequency planner: PLL words -/

/-- C2 counterexample: at 435.3 MHz from the startup state on an always-ready device the
frequency property frame carries `m2,m1,m0 = 11,233,64`, the bytes of 780608, while the
fractional word of the exact quotient is 780606, whose low byte is 62. -/
theorem C2_counterexample :
    ((sendFrequencyToSi446x 1 435300000 (startup 10 readyDevice readyDevice)).map
      fun s => (commandFrames 10 s.trace)) =
      some [[0x11, 0x20, 0x01, 0x51, 10],
            [0x11, 0x40, 0x06, 0x00, 63, 11, 233, 64, 0, 31],
            [0x11, 0x22, 0x01, 0x01, 20]] ∧
    exactFractionWord 435300000 (2 * 27000000 / 8) 63 = 780606 ∧
    (780606 : Int) = 11 * 65536 + 233 * 256 + 62 := by
  refine ⟨by decide, ?_, by norm_num⟩
  unfold exactFractionWord
  rw [Int.floor_eq_iff]
  norm_num

/-- C2 as amended.  For every carrier with 119 MHz < freqHz < 1050 MHz planned from a state
whose output divider is the startup value 4, with `D` the divider of the breakpoint table
and `fPfd = 2 * 27000000 / D`: `sendFrequencyToSi446x` returns on a device that is ready
again and again, and whenever it returns its second frame is
`{0x11,0x40,0x06,0x00,n,m2,m1,m0,c1,c0}` with `n = floor(freqHz / fPfd) - 1`, computed
without underflow and fitting in one byte, and `m2,m1,m0` the three big-endian bytes of
`m`, where `m` is the truncation of `rest * 524288` with `rest = ratio - n` and
`ratio = freqHz / fPfd` all computed in single precision (binary32), not the exact
quotient; the product is not negative and fits in 32 bits, so the conversion is defined. -/
theorem C2_pll_words (freq : Nat) (s : State) (hlo : 119000000 < freq)
    (hhi : freq < 1050000000) (h0 : s.outdiv = 4) :
    (Ready s → ∃ fuel s', sendFrequencyToSi446x fuel freq s = some s') ∧
    (∀ fuel s', sendFrequencyToSi446x fuel freq s = some s' →
      ∃ (fPfd n m : Nat) (f1 f3 : List Nat) (m2 m1 m0 c1 c0 : Nat),
        fPfd = 2 * 27000000 / (breakpointTable freq).1 ∧
        (n : Int) = ⌊(freq : ℚ) / (fPfd : ℚ)⌋ - 1 ∧ 1 ≤ freq / fPfd ∧ n < 256 ∧
        (F32.mul (F32.sub (F32.div (F32.ofNat freq) (F32.ofNat fPfd)) (F32.ofNat n))
          (F32.ofNat 524288)).inULongRange ∧
        m = F32.toULong (F32.mul
          (F32.sub (F32.div (F32.ofNat freq) (F32.ofNat fPfd)) (F32.ofNat n))
          (F32.ofNat 524288)) ∧
        m2 < 256 ∧ m1 < 256 ∧ m0 < 256 ∧ m2 * 65536 + m1 * 256 + m0 = m ∧
        commandFrames s.pin s'.trace = commandFrames s.pin s.trace ++
          [f1, [0x11, 0x40, 0x06, 0x00, n, m2, m1, m0, c1, c0], f3]) := by
  constructor
  · intro hs
    obtain ⟨n, s', _, h⟩ := terminates_sendFrequency (fun _ => freq) s hs
    exact ⟨n, s', h n (le_refl n)⟩
  · intro fuel s' h
    obtain ⟨_, _, hsend⟩ := sendFrequency_some h
    rw [h0, selectBand_startup] at hsend
    obtain ⟨hfp, hfp0, hq1, hq2⟩ := table_facts freq hlo hhi
    have hn : pll_n freq (breakpointTable freq).1 = freq / f_pfd (breakpointTable freq).1 - 1 := by
      unfold pll_n; omega
    have hm := pll_m_bound freq (breakpointTable freq).1 hfp0 (by omega) (by omega)
    refine ⟨f_pfd (breakpointTable freq).1, pll_n freq (breakpointTable freq).1,
      pll_m freq (breakpointTable freq).1,
      set_band_property_command (breakpointTable freq).2,
      set_pa_pwr_lvl_property_command s.active_level,
      pll_m2 (pll_m freq (breakpointTable freq).1) % 256,
      pll_m1 (pll_m freq (breakpointTable freq).1) % 256,
      pll_m0 (pll_m freq (breakpointTable freq).1) % 256,
      toByte (chan_c1 (channel_increment (breakpointTable freq).1 s.active_shift)),
      toByte (chan_c0 (channel_increment (breakpointTable freq).1 s.active_shift)),
      hfp, ?_, by omega, by omega,
      pll_m_inRange freq (breakpointTable freq).1 hfp0 (by omega) (by omega), rfl,
      Nat.mod_lt _ (by norm_num), Nat.mod_lt _ (by norm_num),
      Nat.mod_lt _ (by norm_num), pll_bytes _ hm, ?_⟩
    · rw [Rat.floor_natCast_div_natCast, hn]
      have := Int.natCast_div freq (f_pfd (breakpointTable freq).1)
      omega
    · have hf := sends_frames hsend
      have e : set_frequency_property_command freq (breakpointTable freq).1 s.active_shift =
          [0x11, 0x40, 0x06, 0x00, pll_n freq (breakpointTable freq).1,
           pll_m2 (pll_m freq (breakpointTable freq).1) % 256,
           pll_m1 (pll_m freq (breakpointTable freq).1) % 256,
           pll_m0 (pll_m freq (breakpointTable freq).1) % 256,
           toByte (chan_c1 (channel_increment (breakpointTable freq).1 s.active_shift)),
           toByte (chan_c0 (channel_increment (breakpointTable freq).1 s.active_shift))] := by
        have hb : pll_n freq (breakpointTable freq).1 % 256 =
            pll_n freq (breakpointTable freq).1 := Nat.mod_eq_of_lt (by omega)
        simp only [set_frequency_property_command, hb]
      rw [e] at hf
      exact hf

/-- C2 witness: 433550000 Hz from the startup state gives `D = 8`, `fPfd = 6750000`,
`n = 63` and `m = 644680 = 0x09D648`, sent as `m2 = 9`, `m1 = 214`, `m0 = 72`; at this
frequency the single-precision word and the exact one agree. -/
theorem C2_pll_words_witness :
    (119000000 < 433550000 ∧ 433550000 < 1050000000 ∧
      (startup 10 readyDevice readyDevice).outdiv = 4) ∧
    set_frequency_property_command 433550000 8 400 =
      [0x11, 0x40, 0x06, 0x00, 63, 9, 214, 72, 0, 31] ∧
    pll_m 433550000 8 = 644680 ∧ exactFractionWord 433550000 6750000 63 = 644680 ∧
    ∃ fuel s', sendFrequencyToSi446x fuel 433550000 (startup 10 readyDevice readyDevice) =
        some s' ∧
      ∃ (fPfd n m : Nat) (f1 f3 : List Nat) (m2 m1 m0 c1 c0 : Nat),
        fPfd = 2 * 27000000 / (breakpointTable 433550000).1 ∧
        (n : Int) = ⌊((433550000 : Nat) : ℚ) / (fPfd : ℚ)⌋ - 1 ∧ 1 ≤ 433550000 / fPfd ∧
        n < 256 ∧
        (F32.mul (F32.sub (F32.div (F32.ofNat 433550000) (F32.ofNat fPfd)) (F32.ofNat n))
          (F32.ofNat 524288)).inULongRange ∧
        m = F32.toULong (F32.mul
          (F32.sub (F32.div (F32.ofNat 433550000) (F32.ofNat fPfd)) (F32.ofNat n))
          (F32.ofNat 524288)) ∧
        m2 < 256 ∧ m1 < 256 ∧ m0 < 256 ∧ m2 * 65536 + m1 * 256 + m0 = m ∧
        commandFrames 10 s'.trace =
          commandFrames 10 (startup 10 readyDevice readyDevice).trace ++
            [f1, [0x11, 0x40, 0x06, 0x00, n, m2, m1, m0, c1, c0], f3] := by
  have hr : Ready (startup 10 readyDevice readyDevice) := fun _ => ⟨0, rfl⟩
  have hthm := C2_pll_words 433550000 (startup 10 readyDevice readyDevice) (by decide)
    (by decide) rfl
  obtain ⟨fuel, s', h⟩ := hthm.1 hr
  have hex : exactFractionWord 433550000 6750000 63 = 644680 := by
    unfold exactFractionWord
    rw [Int.floor_eq_iff]
    norm_num
  exact ⟨⟨by decide, by decide, rfl⟩, by decide, by decide, hex, fuel, s', h,
    hthm.2 fuel s' h⟩

/-! ## Validated setters -/

/-- C5 (store-then-report contract of the validated setters).  From every state:
`setShift(s)` returns true exactly when `1 < s < 10000`, `setPowerLevel(l)` returns true
exactly when `1 < l < 128`, and `setFrequency(f)` returns true exactly when
`119 < f < 1050`; in every case the new state is the old one with only the stored value
replaced (the shift, the level, or the frequency in Hz, which is the `float` product
`f * 1000000` truncated, a conversion that is defined for every accepted `f`), so the other
stored values, the clock and the trace of bus and pin actions are unchanged. -/
theorem C5_setters (s : State) :
    (∀ shift : Nat,
      ((setShift shift s).1 = true ↔ 1 < shift ∧ shift < 10000) ∧
      (setShift shift s).2 = { s with active_shift := shift } ∧
      (setShift shift s).2.active_shift = shift ∧ (setShift shift s).2.trace = s.trace) ∧
    (∀ level : Nat,
      ((setPowerLevel level s).1 = true ↔ 1 < level ∧ level < 128) ∧
      (setPowerLevel level s).2 = { s with active_level := level } ∧
      (setPowerLevel level s).2.active_level = level ∧
      (setPowerLevel level s).2.trace = s.trace) ∧
    (∀ fFreq : F32,
      ((setFrequency fFreq s).1 = true ↔ 119 < fFreq.toRat ∧ fFreq.toRat < 1050) ∧
      (setFrequency fFreq s).2 =
        { s with active_freq := F32.toULong (F32.mul fFreq (F32.ofNat 1000000)) } ∧
      (setFrequency fFreq s).2.trace = s.trace ∧
      ((setFrequency fFreq s).1 = true →
        (F32.mul fFreq (F32.ofNat 1000000)).inULongRange)) := by
  refine ⟨fun shift => ⟨?_, rfl, rfl, rfl⟩, fun level => ⟨?_, rfl, rfl, rfl⟩,
    fun fFreq => ⟨?_, rfl, rfl, fun h => ?_⟩⟩
  · simp [setShift]
  · simp [setPowerLevel]
  · simp only [setFrequency, Bool.and_eq_true, lt_iff, ofNat_119, ofNat_1050]
  · simp only [setFrequency, Bool.and_eq_true, lt_iff, ofNat_119, ofNat_1050] at h
    exact setFrequency_inRange fFreq h.1 h.2

/-- C5 witness: `setShift(5000)` returns true and stores 5000; `setShift(0)` returns false
and stores 0. -/
theorem C5_setters_witness :
    (setShift 5000 (startup 10 readyDevice readyDevice)).1 = true ∧
    (setShift 5000 (startup 10 readyDevice readyDevice)).2.active_shift = 5000 ∧
    (setShift 0 (startup 10 readyDevice readyDevice)).1 = false ∧
    (setShift 0 (startup 10 readyDevice readyDevice)).2.active_shift = 0 := by
  have h := (C5_setters (startup 10 readyDevice readyDevice)).1
  refine ⟨(h 5000).1.mpr (by decide), (h 5000).2.2.1, ?_, (h 0).2.2.1⟩
  have h0 := (h 0).1
  cases hb : (setShift 0 (startup 10 readyDevice readyDevice)).1
  · rfl
  · exact absurd (h0.mp hb).1 (by decide)

/-! ## Deviation -/

/-- C7 counterexample: with the output divider 8 left by
`sendFrequencyToSi446x(433550000)`, `setDeviation(8111)` sends the deviation frame with the
bytes `0,1,59` of the word 315, while the word of the exact quotient is 314, whose bytes
are `0,1,58`; and for `deviationHz = 700000000` the word computed is 27185304 while the
exact one is 27185303 (a product of more than 25 bits is even in single precision). -/
theorem C7_counterexample :
    ((sendFrequencyToSi446x 1 433550000 (startup 10 readyDevice readyDevice)).bind fun s1 =>
      (setDeviation 1 8111 s1).map fun s2 =>
        (s1.outdiv, (commandFrames 10 s2.trace).drop 3)) =
      some (8, [[0x11, 0x20, 0x03, 0x0A, 0, 1, 59]]) ∧
    exactDeviationWord 8 8111 = 314 ∧ (314 : Int) = 0 * 65536 + 1 * 256 + 58 ∧
    modem_freq_dev 8 700000000 = 27185304 ∧ exactDeviationWord 8 700000000 = 27185303 := by
  refine ⟨by decide, ?_, by norm_num, by decide, ?_⟩
  · unfold exactDeviationWord
    rw [Int.floor_eq_iff]
    norm_num
  · unfold exactDeviationWord
    rw [Int.floor_eq_iff]
    norm_num

/-- C7 as amended.  For every deviationHz and every state (so for every output divider
left by the most recent `sendFrequencyToSi446x` call): `setDeviation` returns on a device
that is ready again and again, and whenever it returns it has sent exactly one command
frame, `{0x11,0x20,0x03,0x0A,d2,d1,d0}`, where `d2,d1,d0` are bits 23-16, 15-8 and 7-0 of
the deviation word `w`, and `w` is the truncation of `units_per_hz * deviationHz / 2` with
`units_per_hz = (2^18 * D) / 27000000`, every operation rounded to single precision
(binary32), not the exact quotient; for the dividers 4, 6, 8, 12, 16, 24 and a 32-bit
deviationHz the conversion of that value to `unsigned long` is defined, and for these
dividers and a deviationHz that `setShift` accepts (`1 < deviationHz < 10000`) the word is
within 1 of the floor of the exact value. -/
theorem C7_deviation_frame (deviation : Nat) (s : State) :
    (Ready s → ∃ fuel s', setDeviation fuel deviation s = some s') ∧
    (∀ fuel s', setDeviation fuel deviation s = some s' →
      ∃ w d2 d1 d0 : Nat,
        w = F32.toULong (F32.div
          (F32.mul (F32.div (F32.ofNat (2 ^ 18 * s.outdiv)) (F32.ofNat 27000000))
            (F32.ofNat deviation))
          (F32.ofNat 2)) ∧
        d2 = w / 65536 % 256 ∧ d1 = w / 256 % 256 ∧ d0 = w % 256 ∧
        commandFrames s.pin s'.trace = commandFrames s.pin s.trace ++
          [[0x11, 0x20, 0x03, 0x0A, d2, d1, d0]]) ∧
    (s.outdiv ∈ [4, 6, 8, 12, 16, 24] → deviation < 2 ^ 32 →
      (F32.div
        (F32.mul (F32.div (F32.ofNat (2 ^ 18 * s.outdiv)) (F32.ofNat 27000000))
          (F32.ofNat deviation))
        (F32.ofNat 2)).inULongRange) ∧
    (s.outdiv ∈ [4, 6, 8, 12, 16, 24] → 1 < deviation → deviation < 10000 →
      exactDeviationWord s.outdiv deviation - 1 ≤
        ((F32.toULong (F32.div
          (F32.mul (F32.div (F32.ofNat (2 ^ 18 * s.outdiv)) (F32.ofNat 27000000))
            (F32.ofNat deviation))
          (F32.ofNat 2)) : Nat) : Int) ∧
      ((F32.toULong (F32.div
          (F32.mul (F32.div (F32.ofNat (2 ^ 18 * s.outdiv)) (F32.ofNat 27000000))
            (F32.ofNat deviation))
          (F32.ofNat 2)) : Nat) : Int) ≤ exactDeviationWord s.outdiv deviation + 1) := by
  refine ⟨?_, ?_, ?_, ?_⟩
  · intro hs
    obtain ⟨n, s', _, h⟩ := terminates_setDeviation (fun _ => deviation) s hs
    exact ⟨n, s', h n (le_refl n)⟩
  · intro fuel s' h
    have hf := sends_frames (setDeviation_some h).2
    refine ⟨modem_freq_dev s.outdiv deviation, _, _, _, rfl, rfl, rfl, rfl, ?_⟩
    rw [hf]
    simp only [set_modem_freq_dev_command, and_255, Nat.shiftRight_eq_div_pow]
  · intro hD hdev
    have hle : s.outdiv ≤ 24 := by
      simp only [List.mem_cons, List.mem_singleton, List.not_mem_nil, or_false] at hD
      omega
    exact modem_freq_dev_inRange s.outdiv deviation hle hdev
  · intro hD hlo hhi
    have hb : 0 < s.outdiv ∧ s.outdiv ≤ 24 := by
      simp only [List.mem_cons, List.mem_singleton, List.not_mem_nil, or_false] at hD
      omega
    exact modem_freq_dev_near s.outdiv deviation hb.1 hb.2 hlo hhi

/-- C7 witness: with `D = 8` and `deviationHz = 400` the deviation word is 15 and the frame
ends in `0x00,0x00,0x0F`. -/
theorem C7_deviation_frame_witness :
    modem_freq_dev 8 400 = 15 ∧
    set_modem_freq_dev_command 8 400 = [0x11, 0x20, 0x03, 0x0A, 0x00, 0x00, 0x0F] ∧
    ∃ fuel s', setDeviation fuel 400
        { startup 10 readyDevice readyDevice with outdiv := 8 } = some s' ∧
      ∃ w d2 d1 d0 : Nat,
        w = F32.toULong (F32.div
          (F32.mul (F32.div (F32.ofNat (2 ^ 18 * 8)) (F32.ofNat 27000000)) (F32.ofNat 400))
          (F32.ofNat 2)) ∧
        d2 = w / 65536 % 256 ∧ d1 = w / 256 % 256 ∧ d0 = w % 256 ∧
        commandFrames 10 s'.trace =
          commandFrames 10 (startup 10 readyDevice readyDevice).trace ++
            [[0x11, 0x20, 0x03, 0x0A, d2, d1, d0]] := by
  have hr : Ready { startup 10 readyDevice readyDevice with outdiv := 8 } := fun _ => ⟨0, rfl⟩
  have hthm := C7_deviation_frame 400 { startup 10 readyDevice readyDevice with outdiv := 8 }
  obtain ⟨fuel, s', h⟩ := hthm.1 hr
  exact ⟨by decide, by decide, fuel, s', h, hthm.2.1 fuel s' h⟩

/-- C9 counterexample: in the startup state on an always-ready device, `setDeviation(400)`
returns normally, the global divider is still the default 4, and the deviation frame
computed from it (word 7) is the one command frame on the bus. -/
theorem C9_counterexample :
    ((setDeviation 1 400 (startup 10 readyDevice readyDevice)).map fun s =>
      (commandFrames 10 s.trace, s.outdiv)) =
      some ([[0x11, 0x20, 0x03, 0x0A, 0, 0, 7]], 4) := by
  decide

/-- C9 as amended.  In the startup state, before any `sendFrequencyToSi446x` call,
`setDeviation` is not rejected: on a device that is ready again and again it returns, and
whenever it returns it has computed the deviation word from the default divider 4 and sent
the deviation property frame, the only command frame on the bus so far; the globals are
unchanged. -/
theorem C9_deviation_before_frequency (pin deviation : Nat) (miso beyond : Nat → Nat) :
    (Ready (startup pin miso beyond) →
      ∃ fuel s', setDeviation fuel deviation (startup pin miso beyond) = some s') ∧
    (∀ fuel s', setDeviation fuel deviation (startup pin miso beyond) = some s' →
      commandFrames pin s'.trace =
        [[0x11, 0x20, 0x03, 0x0A, modem_freq_dev 4 deviation / 65536 % 256,
          modem_freq_dev 4 deviation / 256 % 256, modem_freq_dev 4 deviation % 256]] ∧
      s'.outdiv = 4 ∧ s'.active_freq = DEFAULT_FREQ ∧ s'.active_shift = DEFAULT_SHIFT ∧
      s'.active_level = DEFAULT_POWER_LEVEL ∧ s'.si446x_powerlevel = 0) := by
  constructor
  · intro hs
    obtain ⟨n, s', _, h⟩ := terminates_setDeviation (fun _ => deviation) _ hs
    exact ⟨n, s', h n (le_refl n)⟩
  · intro fuel s' h
    obtain ⟨⟨d, ev, rfl⟩, hs⟩ := setDeviation_some h
    have hf := sends_frames hs
    refine ⟨?_, rfl, rfl, rfl, rfl, rfl⟩
    have h0 : commandFrames pin (startup pin miso beyond).trace = [] := by
      simp [commandFrames, startup, windowsFrom, flush]
    have hp : (startup pin miso beyond).pin = pin := rfl
    have ho : (startup pin miso beyond).outdiv = 4 := rfl
    rw [hp, h0, ho] at hf
    rw [hf]
    simp only [set_modem_freq_dev_command, and_255, Nat.shiftRight_eq_div_pow]
    norm_num

/-- C9 witness: on an always-ready device the startup state accepts `setDeviation(400)` and
sends the frame of the word 7. -/
theorem C9_deviation_before_frequency_witness :
    Ready (startup 10 readyDevice readyDevice) ∧ modem_freq_dev 4 400 = 7 ∧
    ∃ fuel s', setDeviation fuel 400 (startup 10 readyDevice readyDevice) = some s' ∧
      commandFrames 10 s'.trace =
        [[0x11, 0x20, 0x03, 0x0A, modem_freq_dev 4 400 / 65536 % 256,
          modem_freq_dev 4 400 / 256 % 256, modem_freq_dev 4 400 % 256]] ∧
      s'.outdiv = 4 ∧ s'.active_freq = DEFAULT_FREQ ∧ s'.active_shift = DEFAULT_SHIFT ∧
      s'.active_level = DEFAULT_POWER_LEVEL ∧ s'.si446x_powerlevel = 0 := by
  have hr : Ready (startup 10 readyDevice readyDevice) := fun _ => ⟨0, rfl⟩
  have hthm := C9_deviation_before_frequency 10 400 readyDevice readyDevice
  obtain ⟨fuel, s', h⟩ := hthm.1 hr
  exact ⟨hr, by decide, fuel, s', h, hthm.2 fuel s' h⟩

/-! ## Channel increment -/

/-- C8 at its failing input: `setShift(5000)` is accepted, and with the output divider 8 of
433.55 MHz the product `524288 * 8 * 5000` does not fit in 32 bits, so the channel increment
computed is 70 and the frame carries `c1 = 0`, `c0 = 70`, while the exact value is
388 (`c1 = 1`, `c0 = 132`).  The default shift 400 with the divider 24 of the 2 m band
wraps as well: 13 instead of 93.  With the default shift 400 and the divider 8 the product
fits and the word is the exact 31. -/
theorem C8_channel_increment_wraps :
    (setShift 5000 (startup 10 readyDevice readyDevice)).1 = true ∧
    ((sendFrequencyToSi446x 1 433550000
        (setShift 5000 (startup 10 readyDevice readyDevice)).2).map
      fun s => (s.outdiv, commandFrames 10 s.trace)) =
      some (8, [[0x11, 0x20, 0x01, 0x51, 10],
                [0x11, 0x40, 0x06, 0x00, 63, 9, 214, 72, 0, 70],
                [0x11, 0x22, 0x01, 0x01, 20]]) ∧
    channel_increment 8 5000 = 70 ∧ exactChannelIncrement 8 5000 = 388 ∧
    388 = 1 * 256 + 132 ∧
    channel_increment 24 400 = 13 ∧ exactChannelIncrement 24 400 = 93 ∧
    channel_increment 8 400 = 31 ∧ exactChannelIncrement 8 400 = 31 := by
  refine ⟨by decide, by decide, by decide, by decide, by decide, by decide, by decide,
    by decide, by decide⟩

end Si446x
